import Mathlib

/-!
# text_transcript: the gap heap and the datetime counters

A shallow embedding of `src/text_processing.c`: the array heap of the longest
gaps between consecutive messages (`heapify`, `insert`) and the per-message
statistics (`datetime_to_count`, `message_history`).

Conventions of the embedding.
* `uint64_t` values are natural numbers; the one narrowing conversion of the
  source (`int min_value = heap[..].seconds`) is modelled by `toInt32`, and the
  conversion back in the comparisons against a `uint64_t` by `toU64`.
* A C array is a list read with `rd` and written with `wr`.
* The recursion of `heapify` is bounded by a fuel argument that `heapify` sets
  to `heap_size`; `heapifyAux_fuel` and `heapify_fuel` show that this is always
  enough.
* `mktime` belongs to the C library and is a parameter of the model: it returns
  the `time_t` value together with the normalised `struct tm` it writes back.
* An array index outside its array is undefined in C: `datetime_to_count`
  returns `none` there.
-/

set_option autoImplicit false

namespace TextTranscript

/-! ## Data model -/

/-- The fields of `struct tm` of the C library. -/
structure Tm where
  tm_sec : Int
  tm_min : Int
  tm_hour : Int
  tm_mday : Int
  tm_mon : Int
  tm_year : Int
  tm_wday : Int
  tm_yday : Int
  tm_isdst : Int
  deriving DecidableEq, Repr, Inhabited

/-- The zero-initialised `struct tm`. -/
def Tm.zero : Tm := ⟨0, 0, 0, 0, 0, 0, 0, 0, 0⟩

/-- The record `time_diff`: a gap of `seconds` between `time_1` and `time_2`. -/
structure time_diff where
  seconds : Nat
  time_1 : Tm
  time_2 : Tm
  deriving DecidableEq, Repr

instance : Inhabited time_diff := ⟨⟨0, Tm.zero, Tm.zero⟩⟩

/-- `HEAP_LEVELS`. -/
def HEAP_LEVELS : Nat := 4

/-- `HEAP_SIZE`, that is `(1 << HEAP_LEVELS) - 1`. -/
def HEAP_SIZE : Nat := 2 ^ HEAP_LEVELS - 1

/-- `FIRST_YEAR`. -/
def FIRST_YEAR : Nat := 2000

/-- `LAST_YEAR`. -/
def LAST_YEAR : Nat := 2022

/-- `NUM_YEARS`. -/
def NUM_YEARS : Nat := LAST_YEAR - FIRST_YEAR + 1

/-- `NUM_MONTHS`. -/
def NUM_MONTHS : Nat := 12

/-- Reading `heap[i]`. -/
def rd (heap : List time_diff) (i : Nat) : time_diff := heap.getD i default

/-- Writing `heap[i] = v`. -/
def wr (heap : List time_diff) (i : Nat) (v : time_diff) : List time_diff := heap.set i v

/-- The conversion of a `uint64_t` to `int` (32 bits, two's complement). -/
def toInt32 (v : Nat) : Int :=
  if v % 2 ^ 32 < 2 ^ 31 then ((v % 2 ^ 32 : Nat) : Int) else ((v % 2 ^ 32 : Nat) : Int) - 2 ^ 32

/-- The conversion of an `int` to `uint64_t`, as the comparisons against a
`uint64_t` perform it. -/
def toU64 (z : Int) : Nat := (z % 2 ^ 64).toNat

/-! ## Heap module -/

/-- The body of `heapify`, with the depth of the recursion bounded by the first
argument. -/
def heapifyAux : Nat → List time_diff → Nat → Nat → List time_diff
  | 0, heap, _, _ => heap
  | fuel + 1, heap, heap_size, start =>
    if heap_size ≠ 1 then
      let left := 2 * start + 1
      let right := 2 * start + 2
      let largest_index₁ :=
        if left < heap_size ∧ (rd heap left).seconds > (rd heap start).seconds then left else start
      let largest_index :=
        if right < heap_size ∧ (rd heap right).seconds > (rd heap largest_index₁).seconds
        then right else largest_index₁
      if largest_index ≠ start then
        let tmp := rd heap start
        let heap₁ := wr heap start (rd heap largest_index)
        let heap₂ := wr heap₁ largest_index tmp
        heapifyAux fuel heap₂ heap_size largest_index
      else heap
    else heap

/-- The function `heapify(heap, heap_size, start)`. -/
def heapify (heap : List time_diff) (heap_size start : Nat) : List time_diff :=
  heapifyAux heap_size heap heap_size start

/-- The loop `for (int i = k - 1; i >= 0; i--) heapify(heap, heap_size, i)`,
where the first argument is `k`. -/
def heapifyLoop (heap_size : Nat) : Nat → List time_diff → List time_diff
  | 0, heap => heap
  | k + 1, heap => heapifyLoop heap_size k (heapify heap heap_size k)

/-- The loop `for (int i = i0; i >= 0; i--) heapify(heap, heap_size, i)`. -/
def heapifyFrom (heap : List time_diff) (heap_size : Nat) (i0 : Int) : List time_diff :=
  heapifyLoop heap_size (i0 + 1).toNat heap

/-- One step of the scan for the minimum of `insert`: the state is
`(min_index, min_value)`. -/
def scanStep (heap : List time_diff) (st : Nat × Int) (i : Nat) : Nat × Int :=
  if (rd heap i).seconds < toU64 st.2 then (i, toInt32 (rd heap i).seconds) else st

/-- The scan `for (int i = *heap_size / 2 + 1; i < *heap_size; i++)` of `insert`,
started at `min_index = HEAP_SIZE / 2`. -/
def scanMin (heap : List time_diff) (heap_size : Nat) : Nat × Int :=
  (List.range' (heap_size / 2 + 1) (heap_size - (heap_size / 2 + 1))).foldl (scanStep heap)
    (HEAP_SIZE / 2, toInt32 (rd heap (HEAP_SIZE / 2)).seconds)

/-- The function `insert(x, heap, &heap_size)`: the new array and the new
`heap_size`. -/
def insert (x : time_diff) (heap : List time_diff) (heap_size : Nat) : List time_diff × Nat :=
  if heap_size = 0 then
    (wr heap 0 x, heap_size + 1)
  else if heap_size = HEAP_SIZE then
    let m := scanMin heap heap_size
    if x.seconds > toU64 m.2 then
      (heapifyFrom (wr heap m.1 x) heap_size ((m.1 : Int) / 2 - 1), heap_size)
    else (heap, heap_size)
  else
    (heapifyFrom (wr heap heap_size x) (heap_size + 1) (((heap_size + 1 : Nat) : Int) / 2 - 1),
      heap_size + 1)

/-! ## The tracker -/

/-- The static array `longest_droughts`, zero-initialised. -/
def longest_droughts₀ : List time_diff := List.replicate HEAP_SIZE default

/-- The tracker: the array `longest_droughts` and `heap_elements`. -/
abbrev Tracker := List time_diff × Nat

/-- The empty tracker. -/
def Tracker.empty : Tracker := (longest_droughts₀, 0)

/-- The calls `insert(x, longest_droughts, &heap_elements)` for the records of
a sequence, one at a time. -/
def insertAll (xs : List time_diff) (t : Tracker) : Tracker :=
  xs.foldl (fun t x => insert x t.1 t.2) t

/-- A record of the given duration with zeroed boundary times. -/
def gapOf (s : Nat) : time_diff := ⟨s, Tm.zero, Tm.zero⟩

/-- The durations held in the occupied slots of a tracker. -/
def durations (t : Tracker) : List Nat := (t.1.take t.2).map time_diff.seconds

/-! ## The max-heap invariant and what the proofs need of it -/

/-- The duration held in slot `i`. -/
def key (heap : List time_diff) (i : Nat) : Nat := (rd heap i).seconds

/-- The max-heap condition at slot `j` of an array with `n` occupied slots: the
duration of `j` is at least that of each child below `n`. -/
def okAt (heap : List time_diff) (n j : Nat) : Prop :=
  (2 * j + 1 < n → key heap (2 * j + 1) ≤ key heap j) ∧
  (2 * j + 2 < n → key heap (2 * j + 2) ≤ key heap j)

/-- The half of `okAt` about the left child `2 * j + 1`. -/
def okL (heap : List time_diff) (n j : Nat) : Prop :=
  2 * j + 1 < n → key heap (2 * j + 1) ≤ key heap j

/-- The half of `okAt` about the right child `2 * j + 2`. -/
def okR (heap : List time_diff) (n j : Nat) : Prop :=
  2 * j + 2 < n → key heap (2 * j + 2) ≤ key heap j

/-- The max-heap invariant on the occupied slots `0..n-1`. -/
def isHeap (heap : List time_diff) (n : Nat) : Prop := ∀ j, okAt heap n j

/-- The parent slot. -/
def parent (k : Nat) : Nat := (k - 1) / 2

/-- Slot `j` lies in the subtree rooted at slot `s`. -/
def desc (s j : Nat) : Prop := ∃ d, parent^[d] j = s

/-- Every slot of the subtree below `s` that holds more than slot `s` satisfies
the max-heap condition: the slots that the descent of `heapify` from `s` can
pass through. -/
def safe (heap : List time_diff) (n s : Nat) : Prop :=
  ∀ j, desc s j → j ≠ s → key heap s < key heap j → okAt heap n j

/-- The value of `largest_index` after the two comparisons of `heapify`. -/
def largestIdx (heap : List time_diff) (n s : Nat) : Nat :=
  let l₁ := if 2 * s + 1 < n ∧ (rd heap (2 * s + 1)).seconds > (rd heap s).seconds
    then 2 * s + 1 else s
  if 2 * s + 2 < n ∧ (rd heap (2 * s + 2)).seconds > (rd heap l₁).seconds then 2 * s + 2 else l₁

/-- The exchange of the slots `s` and `c`, as `heapify` writes it. -/
def swapAt (heap : List time_diff) (s c : Nat) : List time_diff :=
  wr (wr heap s (rd heap c)) c (rd heap s)

/-- The part of the max-heap invariant that the full tracker keeps: the
condition at the slots `0, 1, 2`, and at the slots `3..6` for the right child. -/
def weakHeap (g : List time_diff) : Prop :=
  (∀ j, j < 3 → okL g 15 j) ∧ (∀ j, j < 7 → okR g 15 j)

/-- The state of the array between two `heapify` calls of the loop of the full
`insert`, when the calls at the slots from `k` on are done. -/
def midLoop (k : Nat) (g : List time_diff) : Prop :=
  g.length = 15 ∧
  (∀ j, k ≤ j → j < 7 → okR g 15 j) ∧
  (∀ c, 3 ≤ c → c < 7 → okAt g 15 c ∨ key g c ≤ key g (parent c)) ∧
  (∀ c, 3 ≤ c → c < 7 → okAt g 15 c ∨ key g c ≤ key g 0)

/-- The invariant of the trackers: the array has `HEAP_SIZE` slots, at most
`HEAP_SIZE` of them are occupied, they form a max-heap while the tracker is not
full, and satisfy `weakHeap` when it is. -/
def TrackerInv (t : Tracker) : Prop :=
  t.1.length = 15 ∧ t.2 ≤ 15 ∧ (t.2 < 15 → isHeap t.1 t.2) ∧ (t.2 = 15 → weakHeap t.1)

/-- The `k` largest numbers of a list, in non-increasing order. -/
def largest (k : Nat) (l : List Nat) : List Nat := (l.insertionSort (· ≥ ·)).take k

/-- The tracker holds the largest durations of the records `pre`: it has
`min pre.length 15` occupied slots, and the durations of `pre` are those it holds
and a remainder of which none exceeds a duration held. -/
def holdsLargest (pre : List time_diff) (t : Tracker) : Prop :=
  t.2 = min pre.length 15 ∧
  ∃ R, List.Perm (pre.map time_diff.seconds) (durations t ++ R) ∧
    ∀ d ∈ durations t, ∀ r ∈ R, r ≤ d

/-! ## The counters and the driver -/

/-- A row of the message query as `datetime_to_count` and `message_history`
read it: the six numbers that `sscanf` takes from the date (`year` an
`unsigned long`, the others `unsigned int`), whether `argv[2]` differs from
`"0"`, and `atoi(argv[3])`, the length of the text. -/
structure Event where
  year : Nat
  month : Nat
  day : Nat
  hour : Nat
  minute : Nat
  second : Nat
  from_me : Bool
  length : Nat
  deriving DecidableEq, Repr

/-- The static variables of the program. The counters are `uint64_t` and
`size_t`; they are natural numbers here, a run long enough to wrap them being
out of reach. -/
structure State where
  sent_msg_count : Nat
  received_msg_count : Nat
  morning_msg_count : Nat
  afternoon_msg_count : Nat
  evening_msg_count : Nat
  night_msg_count : Nat
  total_message_length : Nat
  year_counts : List Nat
  month_counts : List Nat
  heap_elements : Nat
  longest_droughts : List time_diff
  prev_time : Tm
  first_time : Nat
  deriving DecidableEq, Repr

/-- The state at the start of `main`: every static variable is zero. -/
def State.init : State :=
  { sent_msg_count := 0, received_msg_count := 0, morning_msg_count := 0,
    afternoon_msg_count := 0, evening_msg_count := 0, night_msg_count := 0,
    total_message_length := 0, year_counts := List.replicate NUM_YEARS 0,
    month_counts := List.replicate NUM_MONTHS 0, heap_elements := 0,
    longest_droughts := longest_droughts₀, prev_time := Tm.zero, first_time := 0 }

/-- What the program takes from the C library. `mktime` gives the `time_t` value
of a broken-down time and the normalised `struct tm` it writes back through its
argument. `castOut` is the result of `(uint64_t)` on a `double` outside the
range of `uint64_t`, which C leaves undefined. -/
structure Libc where
  mktime : Tm → Int × Tm
  castOut : Int → Nat

/-- The function `difftime` on two `time_t` values. The `double` it returns is
exact for values of magnitude below `2 ^ 53`, which covers every year the
program accepts. -/
def difftime (a b : Int) : Int := a - b

/-- The conversion `(uint64_t) d` of the `double` that `difftime` returned. -/
def toUint64 (C : Libc) (d : Int) : Nat :=
  if 0 ≤ d ∧ d < 2 ^ 64 then d.toNat else C.castOut d

/-- The local `timestamp` of `datetime_to_count`, as its initialiser fills it:
the fields not named are zero, `month - 1` is computed in `unsigned int` and
`year - 1900` in `unsigned long`, and each value is converted to `int`. -/
def timestampOf (e : Event) : Tm :=
  { tm_sec := toInt32 e.second, tm_min := toInt32 e.minute, tm_hour := toInt32 e.hour,
    tm_mday := toInt32 e.day, tm_mon := toInt32 ((e.month + 2 ^ 32 - 1) % 2 ^ 32),
    tm_year := toInt32 ((e.year + 2 ^ 64 - 1900) % 2 ^ 64),
    tm_wday := 0, tm_yday := 0, tm_isdst := 0 }

/-- The statement `++counts[i]`. -/
def bump (counts : List Nat) (i : Nat) : List Nat := counts.set i (counts.getD i 0 + 1)

/-- The function `datetime_to_count`, after `sscanf` has read the six numbers.
The result is `none` when `month - 1` or `year - FIRST_YEAR` is not an index of
its array, where the behaviour of the C program is undefined. -/
def datetime_to_count (C : Libc) (e : Event) (s : State) : Option State :=
  if e.year < FIRST_YEAR then some s
  else
    let timestamp₀ := timestampOf e
    let first_time := if s.first_time = 0 then 1 else s.first_time
    let prev_time₀ := if s.first_time = 0 then timestamp₀ else s.prev_time
    let seconds := (C.mktime timestamp₀).1
    let timestamp := (C.mktime timestamp₀).2
    let prev_seconds := (C.mktime prev_time₀).1
    let prev_time := (C.mktime prev_time₀).2
    let diffSeconds := toUint64 C (difftime seconds prev_seconds)
    let t : time_diff := { seconds := diffSeconds, time_1 := prev_time, time_2 := timestamp }
    let r := insert t s.longest_droughts s.heap_elements
    if 1 ≤ e.month ∧ e.month - 1 < NUM_MONTHS ∧ e.year - FIRST_YEAR < NUM_YEARS then
      let s₁ : State :=
        { s with longest_droughts := r.1, heap_elements := r.2, prev_time := timestamp,
                 first_time := first_time,
                 month_counts := bump s.month_counts (e.month - 1),
                 year_counts := bump s.year_counts (e.year - FIRST_YEAR) }
      if e.hour ≥ 6 ∧ e.hour < 12 then
        some { s₁ with morning_msg_count := s₁.morning_msg_count + 1 }
      else if e.hour ≥ 12 ∧ e.hour < 18 then
        some { s₁ with afternoon_msg_count := s₁.afternoon_msg_count + 1 }
      else if e.hour ≥ 18 ∧ e.hour < 22 then
        some { s₁ with evening_msg_count := s₁.evening_msg_count + 1 }
      else
        some { s₁ with night_msg_count := s₁.night_msg_count + 1 }
    else none

/-- The callback `message_history` on one row; the lines it prints to the
transcript are left out. -/
def message_history (C : Libc) (e : Event) (s : State) : Option State :=
  match datetime_to_count C e s with
  | none => none
  | some s₁ =>
    let s₂ :=
      if e.from_me = false then { s₁ with received_msg_count := s₁.received_msg_count + 1 }
      else { s₁ with sent_msg_count := s₁.sent_msg_count + 1 }
    some { s₂ with total_message_length := s₂.total_message_length + e.length }

/-- The rows of the query handed to `message_history` in order, as
`sqlite3_exec` does. -/
def run (C : Libc) : List Event → State → Option State
  | [], s => some s
  | e :: es, s =>
    match message_history C e s with
    | none => none
    | some s₁ => run C es s₁

/-! ## A C library and inputs to evaluate the program on -/

/-- The days from 1970-01-01 to the given day of the proleptic Gregorian
calendar (`m` is the month, from 1). -/
def daysFromCivil (y m d : Int) : Int :=
  let y₁ := if m ≤ 2 then y - 1 else y
  let era := y₁ / 400
  let yoe := y₁ - era * 400
  let doy := (153 * (if m > 2 then m - 3 else m + 9) + 2) / 5 + d - 1
  let doe := yoe * 365 + yoe / 4 - yoe / 100 + doy
  era * 146097 + doe - 719468

/-- A C library to evaluate the program with: `mktime` for the UTC zone on
broken-down times that are already normalised (it leaves the `struct tm` as it
is), and the conversion to `uint64_t` that wraps modulo `2 ^ 64`. -/
def Libc.utc : Libc :=
  { mktime := fun t =>
      (daysFromCivil (t.tm_year + 1900) (t.tm_mon + 1) t.tm_mday * 86400
        + t.tm_hour * 3600 + t.tm_min * 60 + t.tm_sec, t)
    castOut := fun d => (d % 2 ^ 64).toNat }

/-- An event at the given date and time, sent by the other person, of length 0. -/
def eventAt (year month day hour minute second : Nat) : Event :=
  { year := year, month := month, day := day, hour := hour, minute := minute,
    second := second, from_me := false, length := 0 }

/-! ## Accepted events -/

/-- The state after `datetime_to_count` on an event that passes the test on the
year and indexes both arrays within bounds, up to the counter of the band. -/
def accepted (C : Libc) (e : Event) (s : State) : State :=
  let t₀ := if s.first_time = 0 then timestampOf e else s.prev_time
  let t : time_diff :=
    { seconds := toUint64 C (difftime (C.mktime (timestampOf e)).1 (C.mktime t₀).1),
      time_1 := (C.mktime t₀).2, time_2 := (C.mktime (timestampOf e)).2 }
  { s with longest_droughts := (insert t s.longest_droughts s.heap_elements).1,
           heap_elements := (insert t s.longest_droughts s.heap_elements).2,
           prev_time := (C.mktime (timestampOf e)).2,
           first_time := if s.first_time = 0 then 1 else s.first_time,
           month_counts := bump s.month_counts (e.month - 1),
           year_counts := bump s.year_counts (e.year - FIRST_YEAR) }

/-- The record that `datetime_to_count` hands to `insert` for the event `e` in
the state `s`. -/
def gapRecord (C : Libc) (e : Event) (s : State) : time_diff :=
  let t₀ := if s.first_time = 0 then timestampOf e else s.prev_time
  { seconds := toUint64 C (difftime (C.mktime (timestampOf e)).1 (C.mktime t₀).1),
    time_1 := (C.mktime t₀).2, time_2 := (C.mktime (timestampOf e)).2 }

/-- The event passes the test on the year and indexes `year_counts` and
`month_counts` within bounds. -/
def inRange (e : Event) : Prop :=
  FIRST_YEAR ≤ e.year ∧ e.year ≤ LAST_YEAR ∧ 1 ≤ e.month ∧ e.month ≤ 12

instance (e : Event) : Decidable (inRange e) := by unfold inRange; infer_instance

/-! ## The records held by the tracker -/

/-- The records in the occupied slots of the tracker. -/
def held (s : State) : List time_diff := s.longest_droughts.take s.heap_elements

/-- The event `b` comes right after the event `a` in the sequence. -/
def adjacent (a b : Event) (evs : List Event) : Prop := ∃ l₁ l₂, evs = l₁ ++ a :: b :: l₂

/-- The `time_t` value of an event. -/
def timeAt (C : Libc) (e : Event) : Int := (C.mktime (timestampOf e)).1

/-- The `struct tm` of an event as `mktime` writes it back: the value that
`datetime_to_count` keeps in `prev_time` and in the records. -/
def stamp (C : Libc) (e : Event) : Tm := (C.mktime (timestampOf e)).2

/-- The record `r` is the gap that ends at an event of the sequence and starts
at the event right before it, or the record of the first event, which starts and
ends at that event. -/
def isGapOf (C : Libc) (evs : List Event) (r : time_diff) : Prop :=
  (C.mktime r.time_1).1 ≤ (C.mktime r.time_2).1 ∧
  (r.seconds : Int) = (C.mktime r.time_2).1 - (C.mktime r.time_1).1 ∧
  ((∃ a b, adjacent a b evs ∧ r.time_1 = stamp C a ∧ r.time_2 = stamp C b) ∨
   (∃ a, evs.head? = some a ∧ r.time_1 = stamp C a ∧ r.time_2 = stamp C a))

/-- The state of the driver after the events `pre`. -/
def driverInv (C : Libc) (pre : List Event) (s : State) : Prop :=
  TrackerInv (s.longest_droughts, s.heap_elements) ∧
  (∀ r ∈ held s, isGapOf C pre r) ∧
  ((pre = [] ∧ s.first_time = 0) ∨
   (∃ l last, pre = l ++ [last] ∧ s.first_time ≠ 0 ∧ s.prev_time = stamp C last))

/-! ## Records and events used in the evaluations -/

/-- Fifteen records of 1, 2, ..., 15 seconds. -/
def asc15 : List time_diff := (List.range 15).map fun i => gapOf (i + 1)

/-- Fifteen records of `2 ^ 32` seconds followed by a record of one second. -/
def trunc16 : List time_diff := List.replicate 15 (gapOf (2 ^ 32)) ++ [gapOf 1]

/-- Three records of 5, 9 and 2 seconds. -/
def three : List time_diff := [gapOf 5, gapOf 9, gapOf 2]

/-- The state after the events of 2010-01-01 00:00:00 and 00:00:10. -/
def afterTwo : State :=
  (run Libc.utc [eventAt 2010 1 1 0 0 0, eventAt 2010 1 1 0 0 10] State.init).getD State.init

/-- Four events of 2010-06-15, at the hours 8, 14, 20 and 2, the second and the
fourth sent by the owner of the database. -/
def fourHours : List Event :=
  [eventAt 2010 6 15 8 0 0, { eventAt 2010 6 15 14 0 0 with from_me := true },
   eventAt 2010 6 15 20 0 0, { eventAt 2010 6 16 2 0 0 with from_me := true }]

set_option maxRecDepth 100000

/-! ## Reading and writing -/

theorem rd_wr (heap : List time_diff) (i j : Nat) (v : time_diff) (hi : i < heap.length) :
    rd (wr heap i v) j = if j = i then v else rd heap j := by
  unfold rd wr
  by_cases h : j = i
  · subst h; simp [List.getD_eq_getElem?_getD, hi]
  · simp [List.getD_eq_getElem?_getD, h, List.getElem?_set_ne (Ne.symm h)]

theorem length_wr (heap : List time_diff) (i : Nat) (v : time_diff) :
    (wr heap i v).length = heap.length := by
  simp [wr]

theorem length_heapifyAux (fuel : Nat) : ∀ (heap : List time_diff) (n s : Nat),
    (heapifyAux fuel heap n s).length = heap.length := by
  induction fuel with
  | zero => intro heap n s; rfl
  | succ f ih =>
    intro heap n s
    simp only [heapifyAux]
    split_ifs <;> simp [ih, length_wr]

/-! ## One step of `heapify` -/

theorem heapifyAux_succ (f : Nat) (heap : List time_diff) (n s : Nat) :
    heapifyAux (f + 1) heap n s =
      if n ≠ 1 then
        (if largestIdx heap n s ≠ s then heapifyAux f (swapAt heap s (largestIdx heap n s)) n
          (largestIdx heap n s) else heap)
      else heap := rfl

theorem largestIdx_cases (heap : List time_diff) (n s : Nat) :
    (largestIdx heap n s = s ∧ (2 * s + 1 < n → key heap (2 * s + 1) ≤ key heap s) ∧
        (2 * s + 2 < n → key heap (2 * s + 2) ≤ key heap s)) ∨
    (largestIdx heap n s = 2 * s + 1 ∧ 2 * s + 1 < n ∧ key heap s < key heap (2 * s + 1) ∧
        (2 * s + 2 < n → key heap (2 * s + 2) ≤ key heap (2 * s + 1))) ∨
    (largestIdx heap n s = 2 * s + 2 ∧ 2 * s + 2 < n ∧ key heap s < key heap (2 * s + 2) ∧
        key heap (2 * s + 1) < key heap (2 * s + 2)) := by
  by_cases h1 : 2 * s + 1 < n ∧ (rd heap (2 * s + 1)).seconds > (rd heap s).seconds
  · by_cases h2 : 2 * s + 2 < n ∧ (rd heap (2 * s + 2)).seconds > (rd heap (2 * s + 1)).seconds
    · have hl : largestIdx heap n s = 2 * s + 2 := by simp [largestIdx, h1, h2]
      have h1b := h1.2
      have h2b := h2.2
      unfold key
      exact Or.inr (Or.inr ⟨hl, h2.1, by omega, by omega⟩)
    · have hl : largestIdx heap n s = 2 * s + 1 := by simp [largestIdx, h1, h2]
      have h1b := h1.2
      unfold key
      refine Or.inr (Or.inl ⟨hl, h1.1, by omega, ?_⟩)
      intro h; by_contra hc; exact h2 ⟨h, by omega⟩
  · by_cases h2 : 2 * s + 2 < n ∧ (rd heap (2 * s + 2)).seconds > (rd heap s).seconds
    · have hl : largestIdx heap n s = 2 * s + 2 := by simp [largestIdx, h1, h2]
      have h2b := h2.2
      have h3 : 2 * s + 1 < n := by omega
      unfold key
      refine Or.inr (Or.inr ⟨hl, h2.1, by omega, ?_⟩)
      by_contra hc; exact h1 ⟨h3, by omega⟩
    · have hl : largestIdx heap n s = s := by simp [largestIdx, h1, h2]
      unfold key
      refine Or.inl ⟨hl, ?_, ?_⟩
      · intro h; by_contra hc; exact h1 ⟨h, by omega⟩
      · intro h; by_contra hc; exact h2 ⟨h, by omega⟩

theorem rd_swapAt (heap : List time_diff) (s c k : Nat) (hs : s < heap.length)
    (hc : c < heap.length) :
    rd (swapAt heap s c) k = if k = c then rd heap s else if k = s then rd heap c else rd heap k := by
  unfold swapAt
  rw [rd_wr _ _ _ _ (by rw [length_wr]; exact hc), rd_wr _ _ _ _ hs]

theorem length_swapAt (heap : List time_diff) (s c : Nat) :
    (swapAt heap s c).length = heap.length := by
  simp [swapAt, length_wr]

theorem key_swapAt (heap : List time_diff) (s c k : Nat) (hs : s < heap.length)
    (hc : c < heap.length) :
    key (swapAt heap s c) k =
      if k = c then key heap s else if k = s then key heap c else key heap k := by
  unfold key
  rw [rd_swapAt heap s c k hs hc]
  split_ifs <;> rfl

/-! ## Subtrees -/

theorem desc_le {s j : Nat} (h : desc s j) : s ≤ j := by
  obtain ⟨d, hd⟩ := h
  induction d generalizing j with
  | zero => simp at hd; omega
  | succ d ih =>
    rw [Function.iterate_succ_apply] at hd
    have := ih hd
    unfold parent at this
    omega

theorem desc_of_child {s c j : Nat} (hc : c = 2 * s + 1 ∨ c = 2 * s + 2) (h : desc c j) :
    desc s j := by
  obtain ⟨d, hd⟩ := h
  refine ⟨d + 1, ?_⟩
  rw [Function.iterate_succ_apply', hd]
  unfold parent
  omega

/-! ## The descent of `heapify` -/

/-- What one call of `heapify` at `s` achieves when the slots it can descend
through satisfy the max-heap condition: the condition holds at `s`, slots before
`s` are untouched, no other slot gains, slot `s` does not lose and stays under
every bound of `s` and its children, and the condition is kept at every slot
other than `s` and its parent. -/
theorem sift (n f : Nat) : ∀ (h : List time_diff) (s : Nat), n ≤ h.length → n ≤ s + f →
    safe h n s →
    okAt (heapifyAux f h n s) n s ∧
    (∀ k, k < s → rd (heapifyAux f h n s) k = rd h k) ∧
    (∀ j, j ≠ s → key (heapifyAux f h n s) j ≤ key h j) ∧
    (∀ B, key h s ≤ B → (2 * s + 1 < n → key h (2 * s + 1) ≤ B) →
      (2 * s + 2 < n → key h (2 * s + 2) ≤ B) → key (heapifyAux f h n s) s ≤ B) ∧
    key h s ≤ key (heapifyAux f h n s) s ∧
    (∀ j, j ≠ s → 2 * j + 1 ≠ s → 2 * j + 2 ≠ s →
      (okL h n j → okL (heapifyAux f h n s) n j) ∧ (okR h n j → okR (heapifyAux f h n s) n j)) := by
  induction f with
  | zero =>
    intro h s _ hf _
    simp only [heapifyAux]
    refine ⟨⟨fun hh => by omega, fun hh => by omega⟩, fun _ _ => trivial, fun _ _ => le_refl _,
      fun B hB _ _ => hB, le_refl _, fun j _ _ _ => ⟨id, id⟩⟩
  | succ f ih =>
    intro h s hlen hf hsafe
    rw [heapifyAux_succ]
    by_cases hn : n = 1
    · simp only [hn, ne_eq, not_true_eq_false, if_false]
      refine ⟨⟨fun hh => by omega, fun hh => by omega⟩, fun _ _ => trivial, fun _ _ => le_refl _,
        fun B hB _ _ => hB, le_refl _, fun j _ _ _ => ⟨?_, ?_⟩⟩ <;> simp [hn]
    · simp only [ne_eq, hn, not_false_eq_true, if_true]
      have key_step : (largestIdx h n s = s ∧ (2 * s + 1 < n → key h (2 * s + 1) ≤ key h s) ∧
          (2 * s + 2 < n → key h (2 * s + 2) ≤ key h s)) ∨
          ((largestIdx h n s = 2 * s + 1 ∨ largestIdx h n s = 2 * s + 2) ∧ largestIdx h n s < n ∧
            key h s < key h (largestIdx h n s) ∧
            (2 * s + 1 < n → key h (2 * s + 1) ≤ key h (largestIdx h n s)) ∧
            (2 * s + 2 < n → key h (2 * s + 2) ≤ key h (largestIdx h n s))) := by
        rcases largestIdx_cases h n s with ⟨h0, h1, h2⟩ | ⟨h0, h1, h2, h3⟩ | ⟨h0, h1, h2, h3⟩
        · exact Or.inl ⟨h0, h1, h2⟩
        · rw [h0]; exact Or.inr ⟨Or.inl rfl, h1, h2, fun _ => le_refl _, h3⟩
        · rw [h0]; exact Or.inr ⟨Or.inr rfl, h1, h2, fun _ => le_of_lt h3, fun _ => le_refl _⟩
      rcases key_step with ⟨h0, h1, h2⟩ | ⟨hcs, hcn, hlt, hL, hR⟩
      · simp only [h0, not_true_eq_false, if_false]
        exact ⟨⟨h1, h2⟩, fun _ _ => trivial, fun _ _ => le_refl _, fun B hB _ _ => hB, le_refl _,
          fun j _ _ _ => ⟨id, id⟩⟩
      · generalize largestIdx h n s = c at hcs hcn hlt hL hR
        have hsc : s < c := by omega
        have hcs' : c ≠ s := by omega
        simp only [hcs', not_false_eq_true, if_true]
        have hsl : s < h.length := by omega
        have hcl : c < h.length := by omega
        have hk : ∀ k, key (swapAt h s c) k =
            if k = c then key h s else if k = s then key h c else key h k :=
          fun k => key_swapAt h s c k hsl hcl
        have hokc : okAt h n c := hsafe c (desc_of_child hcs ⟨0, rfl⟩) hcs' hlt
        have hsafe2 : safe (swapAt h s c) n c := by
          intro j hj hjc hjk
          have hcj : c ≤ j := desc_le hj
          have hj1 : j ≠ s := by omega
          rw [hk c, hk j] at hjk
          simp only [if_true, hjc, hj1, if_false] at hjk
          have := hsafe j (desc_of_child hcs hj) hj1 hjk
          unfold okAt at this ⊢
          rw [hk j, hk (2 * j + 1), hk (2 * j + 2)]
          have e1 : 2 * j + 1 ≠ c := by omega
          have e2 : 2 * j + 1 ≠ s := by omega
          have e3 : 2 * j + 2 ≠ c := by omega
          have e4 : 2 * j + 2 ≠ s := by omega
          simp only [hjc, hj1, e1, e2, e3, e4, if_false]
          exact this
        obtain ⟨A1, A2, A3, A4, A5, A6⟩ :=
          ih (swapAt h s c) c (by rw [length_swapAt]; exact hlen) (by omega) hsafe2
        generalize heapifyAux f (swapAt h s c) n c = h' at A1 A2 A3 A4 A5 A6
        have hs' : key h' s = key h c := by
          have := A2 s hsc
          unfold key
          rw [this, rd_swapAt h s c s hsl hcl]
          simp [Ne.symm hcs']
        have hc' : key h' c ≤ key h c := by
          apply A4
          · rw [hk c]; simp; omega
          · intro hh
            rw [hk (2 * c + 1)]
            have e1 : 2 * c + 1 ≠ c := by omega
            have e2 : 2 * c + 1 ≠ s := by omega
            simp only [e1, e2, if_false]
            exact hokc.1 hh
          · intro hh
            rw [hk (2 * c + 2)]
            have e1 : 2 * c + 2 ≠ c := by omega
            have e2 : 2 * c + 2 ≠ s := by omega
            simp only [e1, e2, if_false]
            exact hokc.2 hh
        have hoth : ∀ j, j ≠ s → j ≠ c → key h' j ≤ key h j := by
          intro j hj1 hj2
          have := A3 j hj2
          rw [hk j] at this
          simpa [hj1, hj2] using this
        refine ⟨⟨?_, ?_⟩, ?_, ?_, ?_, ?_, ?_⟩
        · intro hh
          rw [hs']
          by_cases e : 2 * s + 1 = c
          · rw [e]; exact hc'
          · exact le_trans (hoth _ (by omega) e) (hL hh)
        · intro hh
          rw [hs']
          by_cases e : 2 * s + 2 = c
          · rw [e]; exact hc'
          · exact le_trans (hoth _ (by omega) e) (hR hh)
        · intro k hk1
          rw [A2 k (by omega), rd_swapAt h s c k hsl hcl]
          have e1 : k ≠ c := by omega
          have e2 : k ≠ s := by omega
          simp [e1, e2]
        · intro j hj
          by_cases e : j = c
          · rw [e]; exact hc'
          · exact hoth j hj e
        · intro B _ hB1 hB2
          rw [hs']
          rcases hcs with e | e
          · rw [e] at hcn ⊢; exact hB1 hcn
          · rw [e] at hcn ⊢; exact hB2 hcn
        · rw [hs']; exact le_of_lt hlt
        · intro j hj1 hj2 hj3
          by_cases e : j = c
          · rw [e]; exact ⟨fun _ => A1.1, fun _ => A1.2⟩
          · have e1 : 2 * j + 1 ≠ c := by omega
            have e2 : 2 * j + 2 ≠ c := by omega
            obtain ⟨B1, B2⟩ := A6 j e e1 e2
            constructor
            · intro hl
              apply B1
              unfold okL at hl ⊢
              rw [hk j, hk (2 * j + 1)]
              simp only [e, hj1, e1, hj2, if_false]
              exact hl
            · intro hr
              apply B2
              unfold okR at hr ⊢
              rw [hk j, hk (2 * j + 2)]
              simp only [e, hj1, e2, hj3, if_false]
              exact hr

/-! ## The fuel of `heapify` is enough -/

theorem largestIdx_ge (heap : List time_diff) (n s : Nat) (h : n ≤ s) :
    largestIdx heap n s = s := by
  rcases largestIdx_cases heap n s with ⟨h0, _⟩ | ⟨_, h1, _⟩ | ⟨_, h1, _⟩
  · exact h0
  · omega
  · omega

theorem largestIdx_ne (heap : List time_diff) (n s : Nat) (h : largestIdx heap n s ≠ s) :
    s < largestIdx heap n s ∧ largestIdx heap n s < n := by
  rcases largestIdx_cases heap n s with ⟨h0, _⟩ | ⟨h0, h1, _⟩ | ⟨h0, h1, _⟩
  · exact absurd h0 h
  · omega
  · omega

/-- The result of `heapifyAux` is the same for every fuel of at least
`heap_size - start`: the recursion of `heapify` ends before the fuel does. -/
theorem heapifyAux_fuel (n f : Nat) : ∀ (g : Nat) (h : List time_diff) (s : Nat),
    n ≤ s + f → f ≤ g → heapifyAux f h n s = heapifyAux g h n s := by
  induction f with
  | zero =>
    intro g h s hf _
    cases g with
    | zero => rfl
    | succ g =>
      rw [heapifyAux_succ, largestIdx_ge h n s (by omega)]
      simp [heapifyAux]
  | succ f ih =>
    intro g h s hf hg
    cases g with
    | zero => omega
    | succ g =>
      rw [heapifyAux_succ, heapifyAux_succ]
      by_cases hn : n = 1
      · simp [hn]
      · by_cases hc : largestIdx h n s = s
        · simp [hc]
        · simp only [ne_eq, hn, not_false_eq_true, if_true, hc]
          have := largestIdx_ne h n s hc
          exact ih g _ _ (by omega) (by omega)

/-- More fuel than `heap_size` does not change the result of `heapify`. -/
theorem heapify_fuel (g : Nat) (h : List time_diff) (n s : Nat) (hg : n ≤ g) :
    heapifyAux g h n s = heapify h n s :=
  (heapifyAux_fuel n n g h s (by omega) hg).symm

/-! ## `heapify` permutes the occupied slots -/

theorem perm_set_cons {α : Type} (l : List α) (i : Nat) (v : α) (hi : i < l.length) :
    List.Perm (l.set i v) (v :: l.eraseIdx i) := by
  induction l generalizing i with
  | nil => simp at hi
  | cons a t ih =>
    cases i with
    | zero => simp
    | succ i =>
      simp only [List.set_cons_succ, List.eraseIdx_cons_succ]
      have := ih i (by simpa using hi)
      exact (List.Perm.cons a this).trans (List.Perm.swap v a _)

theorem perm_cons_eraseIdx {α : Type} (l : List α) (i : Nat) (hi : i < l.length) :
    List.Perm l (l[i] :: l.eraseIdx i) := by
  induction l generalizing i with
  | nil => simp at hi
  | cons a t ih =>
    cases i with
    | zero => simp
    | succ i =>
      simp only [List.getElem_cons_succ, List.eraseIdx_cons_succ]
      have := ih i (by simpa using hi)
      exact (List.Perm.cons a this).trans (List.Perm.swap _ a _)

theorem rd_eq_getElem (heap : List time_diff) (i : Nat) (hi : i < heap.length) :
    rd heap i = heap[i] := by
  simp [rd, List.getD_eq_getElem?_getD, hi]

theorem perm_swapAt (heap : List time_diff) (s c : Nat) (hs : s < heap.length)
    (hc : c < heap.length) (hsc : s ≠ c) : List.Perm (swapAt heap s c) heap := by
  unfold swapAt wr
  have h1 : (heap.set s (rd heap c)).length = heap.length := by simp
  have p1 := perm_set_cons (heap.set s (rd heap c)) c (rd heap s) (by omega)
  have p2 := perm_cons_eraseIdx (heap.set s (rd heap c)) c (by omega)
  have hb : c < (heap.set s (rd heap c)).length := by omega
  have e2 : (heap.set s (rd heap c))[c] = rd heap c := by
    rw [List.getElem_set_ne hsc]
    exact (rd_eq_getElem heap c hc).symm
  rw [e2] at p2
  have p3 := perm_set_cons heap s (rd heap c) hs
  have p4 := perm_cons_eraseIdx heap s hs
  rw [← rd_eq_getElem heap s hs] at p4
  have p5 : List.Perm ((heap.set s (rd heap c)).eraseIdx c) (heap.eraseIdx s) :=
    List.Perm.cons_inv (p2.symm.trans p3)
  exact p1.trans ((List.Perm.cons _ p5).trans p4.symm)

theorem perm_heapifyAux (n f : Nat) : ∀ (h : List time_diff) (s : Nat), n ≤ h.length →
    List.Perm (heapifyAux f h n s) h := by
  induction f with
  | zero => intro h s _; exact List.Perm.refl _
  | succ f ih =>
    intro h s hlen
    rw [heapifyAux_succ]
    by_cases hn : n = 1
    · simp [hn]
    · by_cases hc : largestIdx h n s = s
      · simp [hc]
      · simp only [ne_eq, hn, not_false_eq_true, if_true, hc]
        have := largestIdx_ne h n s hc
        exact (ih _ _ (by rw [length_swapAt]; exact hlen)).trans
          (perm_swapAt h s _ (by omega) (by omega) (by omega))

theorem rd_heapifyAux_ge (n f : Nat) : ∀ (h : List time_diff) (s : Nat), n ≤ h.length →
    ∀ k, n ≤ k → rd (heapifyAux f h n s) k = rd h k := by
  induction f with
  | zero => intro h s _ k _; rfl
  | succ f ih =>
    intro h s hlen k hk
    rw [heapifyAux_succ]
    by_cases hn : n = 1
    · simp [hn]
    · by_cases hc : largestIdx h n s = s
      · simp [hc]
      · simp only [ne_eq, hn, not_false_eq_true, if_true, hc]
        have := largestIdx_ne h n s hc
        rw [ih _ _ (by rw [length_swapAt]; exact hlen) k hk,
          rd_swapAt h s _ k (by omega) (by omega)]
        have e1 : k ≠ largestIdx h n s := by omega
        have e2 : k ≠ s := by omega
        simp [e1, e2]

/-! ## The loop of `heapify` calls -/

theorem length_heapifyLoop (n k : Nat) : ∀ (h : List time_diff),
    (heapifyLoop n k h).length = h.length := by
  induction k with
  | zero => intro h; rfl
  | succ k ih => intro h; simp [heapifyLoop, ih, heapify, length_heapifyAux]

theorem perm_heapifyLoop (n k : Nat) : ∀ (h : List time_diff), n ≤ h.length →
    List.Perm (heapifyLoop n k h) h := by
  induction k with
  | zero => intro h _; exact List.Perm.refl _
  | succ k ih =>
    intro h hlen
    simp only [heapifyLoop]
    exact (ih _ (by simp [heapify, length_heapifyAux, hlen])).trans (perm_heapifyAux n n h k hlen)

theorem rd_heapifyLoop_ge (n k : Nat) : ∀ (h : List time_diff), n ≤ h.length →
    ∀ i, n ≤ i → rd (heapifyLoop n k h) i = rd h i := by
  induction k with
  | zero => intro h _ i _; rfl
  | succ k ih =>
    intro h hlen i hi
    simp only [heapifyLoop]
    rw [ih _ (by simp [heapify, length_heapifyAux, hlen]) i hi]
    exact rd_heapifyAux_ge n n h k hlen i hi

/-- Running `heapify` at `k - 1, ..., 0` on an array whose slots from `k` on
satisfy the max-heap condition gives a max-heap. -/
theorem isHeap_heapifyLoop (n k : Nat) : ∀ (h : List time_diff), n ≤ h.length →
    (∀ j, k ≤ j → okAt h n j) → isHeap (heapifyLoop n k h) n := by
  induction k with
  | zero => intro h _ hk j; exact hk j (Nat.zero_le _)
  | succ k ih =>
    intro h hlen hk
    simp only [heapifyLoop]
    have hsafe : safe h n k := by
      intro j hj hjk _
      have := desc_le hj
      exact hk j (by omega)
    obtain ⟨A1, _, _, _, _, A6⟩ := sift n n h k hlen (by omega) hsafe
    apply ih _ (by simp [heapify, length_heapifyAux, hlen])
    intro j hj
    by_cases e : j = k
    · rw [e]; exact A1
    · have hj' := hk j (by omega)
      obtain ⟨B1, B2⟩ := A6 j e (by omega) (by omega)
      exact ⟨B1 hj'.1, B2 hj'.2⟩

theorem perm_take_of_perm (h' h : List time_diff) (n : Nat) (hp : List.Perm h' h)
    (hr : ∀ i, n ≤ i → rd h' i = rd h i) : List.Perm (h'.take n) (h.take n) := by
  have hl : h'.length = h.length := hp.length_eq
  have hd : h'.drop n = h.drop n := by
    apply List.ext_getElem
    · simp [hl]
    · intro i h1 h2
      simp only [List.getElem_drop]
      have := hr (n + i) (by omega)
      have b1 : n + i < h'.length := by simp at h1; omega
      have b2 : n + i < h.length := by omega
      rw [rd_eq_getElem h' _ b1, rd_eq_getElem h _ b2] at this
      exact this
  have e1 : h' = h'.take n ++ h.drop n := by rw [← hd]; exact (List.take_append_drop n h').symm
  have e2 : h = h.take n ++ h.drop n := (List.take_append_drop n h).symm
  rw [e1, e2] at hp
  simpa using (List.perm_append_right_iff (h.drop n)).1 (by simpa using hp)

theorem take_succ_wr (heap : List time_diff) (n : Nat) (x : time_diff) (hn : n < heap.length) :
    (wr heap n x).take (n + 1) = heap.take n ++ [x] := by
  unfold wr
  rw [List.take_succ, List.set_take, List.set_eq_of_length_le (by simp)]
  simp [hn]

/-! ## `insert` on a tracker that is not full -/

theorem loop_count (n : Nat) : ((((n : Nat) : Int) / 2 - 1) + 1).toNat = n / 2 := by
  omega

theorem insert_size (x : time_diff) (heap : List time_diff) (n : Nat) (hn : n < HEAP_SIZE) :
    (insert x heap n).2 = n + 1 := by
  unfold insert
  have : n ≠ HEAP_SIZE := by omega
  split_ifs <;> simp_all

theorem insert_not_full_isHeap (x : time_diff) (heap : List time_diff) (n : Nat)
    (hlen : heap.length = HEAP_SIZE) (hn : n < HEAP_SIZE) :
    isHeap (insert x heap n).1 (n + 1) := by
  have h15 : HEAP_SIZE = 15 := rfl
  unfold insert
  by_cases h0 : n = 0
  · subst h0
    simp only [if_true]
    intro j
    exact ⟨fun hh => by omega, fun hh => by omega⟩
  · have : n ≠ HEAP_SIZE := by omega
    simp only [h0, this, if_false]
    unfold heapifyFrom
    rw [loop_count]
    apply isHeap_heapifyLoop
    · rw [length_wr]; omega
    · intro j hj
      exact ⟨fun hh => by omega, fun hh => by omega⟩

theorem insert_not_full_perm (x : time_diff) (heap : List time_diff) (n : Nat)
    (hlen : heap.length = HEAP_SIZE) (hn : n < HEAP_SIZE) :
    List.Perm ((insert x heap n).1.take (n + 1)) (x :: heap.take n) := by
  have h15 : HEAP_SIZE = 15 := rfl
  unfold insert
  by_cases h0 : n = 0
  · subst h0
    simp only [if_true]
    rw [take_succ_wr heap 0 x (by omega)]
    simp
  · have : n ≠ HEAP_SIZE := by omega
    simp only [h0, this, if_false]
    unfold heapifyFrom
    rw [loop_count]
    have hl : n + 1 ≤ (wr heap n x).length := by rw [length_wr]; omega
    have p := perm_take_of_perm _ _ (n + 1) (perm_heapifyLoop (n + 1) ((n + 1) / 2) _ hl)
      (rd_heapifyLoop_ge (n + 1) ((n + 1) / 2) _ hl)
    rw [take_succ_wr heap n x (by omega)] at p
    exact p.trans (List.perm_append_singleton x (heap.take n))

/-! ## The full tracker: what the partial loop of `heapify` calls keeps -/

theorem desc_cases {s j : Nat} (h : desc s j) : j = s ∨ 2 * s + 1 ≤ j := by
  obtain ⟨d, hd⟩ := h
  cases d with
  | zero => left; simpa using hd
  | succ d =>
    rw [Function.iterate_succ_apply] at hd
    have := desc_le ⟨d, hd⟩
    unfold parent at this
    omega

theorem desc_split {s j : Nat} (h : desc s j) :
    j = s ∨ desc (2 * s + 1) j ∨ desc (2 * s + 2) j := by
  obtain ⟨d, hd⟩ := h
  induction d generalizing s with
  | zero => left; simpa using hd
  | succ d ih =>
    rw [Function.iterate_succ_apply'] at hd
    have hp : parent^[d] j = 0 ∨ parent^[d] j = 2 * s + 1 ∨ parent^[d] j = 2 * s + 2 := by
      generalize parent^[d] j = q at hd
      unfold parent at hd; omega
    rcases hp with h0 | h1 | h2
    · have hs : s = 0 := by rw [h0] at hd; unfold parent at hd; omega
      subst hs
      exact ih h0
    · exact Or.inr (Or.inl ⟨d, h1⟩)
    · exact Or.inr (Or.inr ⟨d, h2⟩)

theorem okAt_leaf (g : List time_diff) (j : Nat) (hj : 7 ≤ j) : okAt g 15 j :=
  ⟨fun hh => by omega, fun hh => by omega⟩

theorem key_eq_of_rd {g g' : List time_diff} {k : Nat} (h : rd g' k = rd g k) :
    key g' k = key g k := by
  unfold key; rw [h]

/-- One `heapify` call at a slot `k` of `3..6`. -/
theorem midLoop_step (k : Nat) (g : List time_diff) (hk : 3 ≤ k) (hk7 : k < 7)
    (hg : midLoop (k + 1) g) : midLoop k (heapify g 15 k) := by
  obtain ⟨hlen, hR, hP, h0⟩ := hg
  have hsafe : safe g 15 k := by
    intro j hj hjk _
    rcases desc_cases hj with e | e
    · exact absurd e hjk
    · exact okAt_leaf g j (by omega)
  obtain ⟨A1, A2, A3, _, _, A6⟩ := sift 15 15 g k (by omega) (by omega) hsafe
  unfold heapify
  refine ⟨by rw [length_heapifyAux]; exact hlen, ?_, ?_, ?_⟩
  · intro j hj hj7
    by_cases e : j = k
    · rw [e]; exact A1.2
    · exact (A6 j e (by omega) (by omega)).2 (hR j (by omega) hj7)
  · intro c hc hc7
    by_cases e : c = k
    · rw [e]; exact Or.inl A1
    · rcases hP c hc hc7 with hok | hle
      · obtain ⟨B1, B2⟩ := A6 c e (by omega) (by omega)
        exact Or.inl ⟨B1 hok.1, B2 hok.2⟩
      · right
        have hp : parent c < k := by unfold parent; omega
        rw [key_eq_of_rd (A2 (parent c) hp)]
        exact le_trans (A3 c e) hle
  · intro c hc hc7
    by_cases e : c = k
    · rw [e]; exact Or.inl A1
    · rcases h0 c hc hc7 with hok | hle
      · obtain ⟨B1, B2⟩ := A6 c e (by omega) (by omega)
        exact Or.inl ⟨B1 hok.1, B2 hok.2⟩
      · right
        rw [key_eq_of_rd (A2 0 (by omega))]
        exact le_trans (A3 c e) hle

theorem midLoop_loop (k : Nat) : ∀ (g : List time_diff), k + 3 ≤ 7 → midLoop (k + 3) g →
    ∃ g', heapifyLoop 15 (k + 3) g = heapifyLoop 15 3 g' ∧ midLoop 3 g' := by
  induction k with
  | zero => intro g _ hg; exact ⟨g, rfl, hg⟩
  | succ k ih =>
    intro g hk hg
    have hs := midLoop_step (k + 3) g (by omega) (by omega) hg
    obtain ⟨g', e, hg'⟩ := ih _ (by omega) hs
    exact ⟨g', by rw [← e]; rfl, hg'⟩

/-- The last three `heapify` calls of the loop, at the slots `2, 1, 0`. -/
theorem weakHeap_of_midLoop (g : List time_diff) (hg : midLoop 3 g) :
    weakHeap (heapifyLoop 15 3 g) := by
  obtain ⟨hlen, hR, hP, h0⟩ := hg
  simp only [heapifyLoop, heapify]
  -- the call at slot 2
  have hsafe2 : safe g 15 2 := by
    intro j hj hjk hlt
    rcases desc_split hj with e | e | e
    · exact absurd e hjk
    · rcases desc_cases e with e | e
      · have e' : j = _ := e
        norm_num at e'
        subst e'
        rcases hP 5 (by omega) (by omega) with hok | hle
        · exact hok
        · have : parent 5 = 2 := rfl
          rw [this] at hle; omega
      · exact okAt_leaf g j (by omega)
    · rcases desc_cases e with e | e
      · have e' : j = _ := e
        norm_num at e'
        subst e'
        rcases hP 6 (by omega) (by omega) with hok | hle
        · exact hok
        · have : parent 6 = 2 := rfl
          rw [this] at hle; omega
      · exact okAt_leaf g j (by omega)
  obtain ⟨A1, A2, A3, _, _, A6⟩ := sift 15 15 g 2 (by omega) (by omega) hsafe2
  have hlen2 : (heapifyAux 15 g 15 2).length = 15 := by rw [length_heapifyAux]; exact hlen
  generalize heapifyAux 15 g 15 2 = g2 at A1 A2 A3 A6 hlen2
  have hR2 : ∀ j, 3 ≤ j → j < 7 → okR g2 15 j := fun j h1 h2 =>
    (A6 j (by omega) (by omega) (by omega)).2 (hR j h1 h2)
  have hP2 : ∀ c, 3 ≤ c → c < 5 → okAt g2 15 c ∨ key g2 c ≤ key g2 1 := by
    intro c hc hc5
    rcases hP c hc (by omega) with hok | hle
    · obtain ⟨B1, B2⟩ := A6 c (by omega) (by omega) (by omega)
      exact Or.inl ⟨B1 hok.1, B2 hok.2⟩
    · right
      have hp : parent c = 1 := by unfold parent; omega
      rw [hp] at hle
      rw [key_eq_of_rd (A2 1 (by omega))]
      exact le_trans (A3 c (by omega)) hle
  have h02 : ∀ c, 3 ≤ c → c < 7 → okAt g2 15 c ∨ key g2 c ≤ key g2 0 := by
    intro c hc hc7
    rcases h0 c hc hc7 with hok | hle
    · obtain ⟨B1, B2⟩ := A6 c (by omega) (by omega) (by omega)
      exact Or.inl ⟨B1 hok.1, B2 hok.2⟩
    · right
      rw [key_eq_of_rd (A2 0 (by omega))]
      exact le_trans (A3 c (by omega)) hle
  clear A2 A3 A6 hsafe2 hR hP h0
  -- the call at slot 1
  have hsafe1 : safe g2 15 1 := by
    intro j hj hjk hlt
    rcases desc_split hj with e | e | e
    · exact absurd e hjk
    · rcases desc_cases e with e | e
      · have e' : j = _ := e
        norm_num at e'
        subst e'
        rcases hP2 3 (by omega) (by omega) with hok | hle
        · exact hok
        · omega
      · exact okAt_leaf g2 j (by omega)
    · rcases desc_cases e with e | e
      · have e' : j = _ := e
        norm_num at e'
        subst e'
        rcases hP2 4 (by omega) (by omega) with hok | hle
        · exact hok
        · omega
      · exact okAt_leaf g2 j (by omega)
  obtain ⟨C1, C2, C3, _, _, C6⟩ := sift 15 15 g2 1 (by omega) (by omega) hsafe1
  have hlen3 : (heapifyAux 15 g2 15 1).length = 15 := by rw [length_heapifyAux]; exact hlen2
  generalize heapifyAux 15 g2 15 1 = g3 at C1 C2 C3 C6 hlen3
  have hR3 : ∀ j, 3 ≤ j → j < 7 → okR g3 15 j := fun j h1 h2 =>
    (C6 j (by omega) (by omega) (by omega)).2 (hR2 j h1 h2)
  have hok2 : okAt g3 15 2 := by
    obtain ⟨B1, B2⟩ := C6 2 (by omega) (by omega) (by omega)
    exact ⟨B1 A1.1, B2 A1.2⟩
  have h03 : ∀ c, 3 ≤ c → c < 7 → okAt g3 15 c ∨ key g3 c ≤ key g3 0 := by
    intro c hc hc7
    rcases h02 c hc hc7 with hok | hle
    · obtain ⟨B1, B2⟩ := C6 c (by omega) (by omega) (by omega)
      exact Or.inl ⟨B1 hok.1, B2 hok.2⟩
    · right
      rw [key_eq_of_rd (C2 0 (by omega))]
      exact le_trans (C3 c (by omega)) hle
  clear C2 C3 C6 hsafe1 hR2 hP2 h02 A1
  -- the call at slot 0
  have hsafe0 : safe g3 15 0 := by
    intro j _ hjk hlt
    by_cases h7 : 7 ≤ j
    · exact okAt_leaf g3 j h7
    · by_cases h3 : 3 ≤ j
      · rcases h03 j h3 (by omega) with hok | hle
        · exact hok
        · omega
      · have : j = 1 ∨ j = 2 := by omega
        rcases this with e | e
        · rw [e]; exact C1
        · rw [e]; exact hok2
  obtain ⟨D1, _, _, _, _, D6⟩ := sift 15 15 g3 0 (by omega) (by omega) hsafe0
  generalize heapifyAux 15 g3 15 0 = g4 at D1 D6
  constructor
  · intro j hj
    have : j = 0 ∨ j = 1 ∨ j = 2 := by omega
    rcases this with e | e | e
    · rw [e]; exact D1.1
    · rw [e]; exact (D6 1 (by omega) (by omega) (by omega)).1 C1.1
    · rw [e]; exact (D6 2 (by omega) (by omega) (by omega)).1 hok2.1
  · intro j hj
    by_cases h3 : 3 ≤ j
    · exact (D6 j (by omega) (by omega) (by omega)).2 (hR3 j h3 hj)
    · have : j = 0 ∨ j = 1 ∨ j = 2 := by omega
      rcases this with e | e | e
      · rw [e]; exact D1.2
      · rw [e]; exact (D6 1 (by omega) (by omega) (by omega)).2 C1.2
      · rw [e]; exact (D6 2 (by omega) (by omega) (by omega)).2 hok2.2

/-! ## The scan for the minimum -/

theorem scan_fold_idx (h : List time_diff) : ∀ (l : List Nat) (st : Nat × Int),
    (l.foldl (scanStep h) st).1 = st.1 ∨ (l.foldl (scanStep h) st).1 ∈ l := by
  intro l
  induction l with
  | nil => intro st; left; rfl
  | cons a t ih =>
    intro st
    simp only [List.foldl_cons, List.mem_cons]
    rcases ih (scanStep h st a) with e | e
    · rw [e]
      unfold scanStep
      split_ifs
      · right; left; rfl
      · left; rfl
    · right; right; exact e

theorem scanMin_idx (h : List time_diff) :
    7 ≤ (scanMin h 15).1 ∧ (scanMin h 15).1 < 15 := by
  have h15 : HEAP_SIZE = 15 := rfl
  unfold scanMin
  rcases scan_fold_idx h (List.range' (15 / 2 + 1) (15 - (15 / 2 + 1)))
    (HEAP_SIZE / 2, toInt32 (rd h (HEAP_SIZE / 2)).seconds) with e | e
  · rw [e, h15]; omega
  · rw [List.mem_range'_1] at e
    omega

theorem toU64_toInt32 (v : Nat) (hv : v < 2 ^ 31) : toU64 (toInt32 v) = v := by
  unfold toU64 toInt32
  have h1 : v % 2 ^ 32 = v := Nat.mod_eq_of_lt (by omega)
  rw [h1, if_pos hv]
  omega

/-- When the durations scanned are below `2 ^ 31`, the scan ends on a slot of
least duration among the start slot and the slots scanned. -/
theorem scan_fold_min (h : List time_diff) : ∀ (l : List Nat) (st : Nat × Int),
    (∀ i ∈ l, key h i < 2 ^ 31) → key h st.1 < 2 ^ 31 → st.2 = toInt32 (key h st.1) →
    key h (l.foldl (scanStep h) st).1 ≤ key h st.1 ∧
    (∀ i ∈ l, key h (l.foldl (scanStep h) st).1 ≤ key h i) ∧
    key h (l.foldl (scanStep h) st).1 < 2 ^ 31 ∧
    (l.foldl (scanStep h) st).2 = toInt32 (key h (l.foldl (scanStep h) st).1) := by
  intro l
  induction l with
  | nil => intro st _ h2 h3; exact ⟨le_refl _, by simp, h2, h3⟩
  | cons a t ih =>
    intro st h1 h2 h3
    simp only [List.foldl_cons]
    have ha : key h a < 2 ^ 31 := h1 a (List.mem_cons_self _ _)
    have hst : toU64 st.2 = key h st.1 := by rw [h3]; exact toU64_toInt32 _ h2
    have hstep : key h (scanStep h st a).1 ≤ key h st.1 ∧ key h (scanStep h st a).1 ≤ key h a ∧
        key h (scanStep h st a).1 < 2 ^ 31 ∧
        (scanStep h st a).2 = toInt32 (key h (scanStep h st a).1) := by
      unfold scanStep
      rw [hst]
      by_cases hc : (rd h a).seconds < key h st.1
      · rw [if_pos hc]
        exact ⟨le_of_lt hc, le_refl _, ha, rfl⟩
      · rw [if_neg hc]
        exact ⟨le_refl _, not_lt.1 hc, h2, h3⟩
    obtain ⟨s1, s2, s3, s4⟩ := hstep
    obtain ⟨r1, r2, r3, r4⟩ := ih (scanStep h st a)
      (fun i hi => h1 i (List.mem_cons_of_mem _ hi)) s3 s4
    refine ⟨le_trans r1 s1, ?_, r3, r4⟩
    intro i hi
    rcases List.mem_cons.1 hi with e | e
    · rw [e]; exact le_trans r1 s2
    · exact r2 i e

theorem scanMin_min (h : List time_diff) (hb : ∀ i, 7 ≤ i → i < 15 → key h i < 2 ^ 31) :
    (∀ i, 7 ≤ i → i < 15 → key h (scanMin h 15).1 ≤ key h i) ∧
    toU64 (scanMin h 15).2 = key h (scanMin h 15).1 := by
  have h15 : HEAP_SIZE / 2 = 7 := rfl
  unfold scanMin
  obtain ⟨r1, r2, r3, r4⟩ := scan_fold_min h (List.range' (15 / 2 + 1) (15 - (15 / 2 + 1)))
    (HEAP_SIZE / 2, toInt32 (rd h (HEAP_SIZE / 2)).seconds)
    (fun i hi => by rw [List.mem_range'_1] at hi; exact hb i (by omega) (by omega))
    (by rw [h15]; exact hb 7 (by omega) (by omega)) rfl
  refine ⟨?_, by rw [r4]; exact toU64_toInt32 _ r3⟩
  intro i hi hi15
  by_cases e : i = 7
  · rw [e]; rw [h15] at r1; exact r1
  · exact r2 i (by rw [List.mem_range'_1]; omega)

/-! ## The invariant of the trackers reached from the empty one -/

theorem weakHeap_of_isHeap (g : List time_diff) (h : isHeap g 15) : weakHeap g :=
  ⟨fun j _ => (h j).1, fun j _ => (h j).2⟩

theorem key_wr (g : List time_diff) (m k : Nat) (x : time_diff) (hm : m < g.length) :
    key (wr g m x) k = if k = m then x.seconds else key g k := by
  unfold key
  rw [rd_wr g m k x hm]
  split_ifs <;> rfl

/-- The full `insert` keeps `weakHeap`, whatever leaf slot is overwritten. -/
theorem weakHeap_replace (g : List time_diff) (m : Nat) (x : time_diff) (hlen : g.length = 15)
    (hm : 7 ≤ m) (hm15 : m < 15) (hg : weakHeap g) :
    weakHeap (heapifyFrom (wr g m x) 15 ((m : Int) / 2 - 1)) := by
  unfold heapifyFrom
  rw [loop_count]
  have hk : ∀ k, k < 7 → key (wr g m x) k = key g k := by
    intro k hk
    rw [key_wr g m k x (by omega)]
    simp [show k ≠ m by omega]
  have hup : ∀ c, 3 ≤ c → c < 7 → key g c ≤ key g (parent c) ∧ key g c ≤ key g 0 := by
    intro c hc hc7
    have a0 := hg.1 0 (by omega) (by omega)
    have b0 := hg.2 0 (by omega) (by omega)
    have a1 := hg.1 1 (by omega) (by omega)
    have b1 := hg.2 1 (by omega) (by omega)
    have a2 := hg.1 2 (by omega) (by omega)
    have b2 := hg.2 2 (by omega) (by omega)
    norm_num at a0 b0 a1 b1 a2 b2
    have : c = 3 ∨ c = 4 ∨ c = 5 ∨ c = 6 := by omega
    rcases this with e | e | e | e <;> subst e
    · have : parent 3 = 1 := rfl
      rw [this]; omega
    · have : parent 4 = 1 := rfl
      rw [this]; omega
    · have : parent 5 = 2 := rfl
      rw [this]; omega
    · have : parent 6 = 2 := rfl
      rw [this]; omega
  have hmid : midLoop (m / 2) (wr g m x) := by
    refine ⟨by rw [length_wr]; exact hlen, ?_, ?_, ?_⟩
    · intro j hj hj7 hh
      have := hg.2 j hj7 hh
      rw [hk j hj7, key_wr g m _ x (by omega)]
      simp only [show 2 * j + 2 ≠ m by omega, if_false]
      exact this
    · intro c hc hc7
      right
      rw [hk c hc7, hk (parent c) (by unfold parent; omega)]
      exact (hup c hc hc7).1
    · intro c hc hc7
      right
      rw [hk c hc7, hk 0 (by omega)]
      exact (hup c hc hc7).2
  obtain ⟨k, hk3⟩ : ∃ k, m / 2 = k + 3 := ⟨m / 2 - 3, by omega⟩
  rw [hk3] at hmid ⊢
  obtain ⟨g', e, hg'⟩ := midLoop_loop k _ (by omega) hmid
  rw [e]
  exact weakHeap_of_midLoop g' hg'

theorem length_insert (x : time_diff) (g : List time_diff) (n : Nat) :
    (insert x g n).1.length = g.length := by
  unfold insert
  dsimp only
  split_ifs <;> simp [heapifyFrom, length_wr, length_heapifyLoop]

theorem TrackerInv_insert (x : time_diff) (t : Tracker) (ht : TrackerInv t) :
    TrackerInv (insert x t.1 t.2) := by
  obtain ⟨g, n⟩ := t
  obtain ⟨hlen, hn, hheap, hweak⟩ := ht
  simp only at hlen hn hheap hweak
  have h15 : HEAP_SIZE = 15 := rfl
  show TrackerInv (insert x g n)
  by_cases hfull : n = 15
  · subst hfull
    have hsz : (insert x g 15).2 = 15 := by
      unfold insert
      rw [if_neg (by omega : (15 : Nat) ≠ 0), if_pos h15.symm]
      dsimp only
      split_ifs <;> rfl
    refine ⟨by rw [length_insert]; exact hlen, by rw [hsz], ?_, ?_⟩
    · intro hh; rw [hsz] at hh; omega
    · intro _
      unfold insert
      simp only [h15, show (15 : Nat) ≠ 0 by omega, if_false, if_true]
      split_ifs
      · obtain ⟨m7, m15⟩ := scanMin_idx g
        exact weakHeap_replace g _ x hlen m7 m15 (hweak rfl)
      · exact hweak rfl
  · have hlt : n < HEAP_SIZE := by omega
    have hs := insert_size x g n hlt
    have hh := insert_not_full_isHeap x g n (by rw [h15]; exact hlen) hlt
    refine ⟨by rw [length_insert]; exact hlen, by rw [hs]; omega, ?_, ?_⟩
    · intro _; rw [hs]; exact hh
    · intro h
      rw [hs] at h
      rw [h] at hh
      exact weakHeap_of_isHeap _ hh

theorem TrackerInv_empty : TrackerInv Tracker.empty := by
  refine ⟨rfl, by simp [Tracker.empty], ?_, ?_⟩
  · intro _ j
    exact ⟨fun hh => by simp [Tracker.empty] at hh, fun hh => by simp [Tracker.empty] at hh⟩
  · intro h; simp [Tracker.empty] at h

theorem TrackerInv_insertAll (xs : List time_diff) : ∀ (t : Tracker), TrackerInv t →
    TrackerInv (insertAll xs t) := by
  induction xs with
  | nil => intro t ht; exact ht
  | cons x xs ih =>
    intro t ht
    unfold insertAll
    rw [List.foldl_cons]
    exact ih _ (TrackerInv_insert x t ht)

/-! ## Events outside and inside the range of years -/

theorem toUint64_nonneg (C : Libc) (d : Int) (h0 : 0 ≤ d) (h1 : d < 2 ^ 64) :
    toUint64 C d = d.toNat := by
  unfold toUint64
  rw [if_pos ⟨h0, h1⟩]

theorem toUint64_neg (C : Libc) (d : Int) (h0 : d < 0) : toUint64 C d = C.castOut d := by
  unfold toUint64
  rw [if_neg (by omega)]

theorem datetime_to_count_accepted (C : Libc) (e : Event) (s : State)
    (hy : FIRST_YEAR ≤ e.year) (hy2 : e.year ≤ LAST_YEAR) (hm : 1 ≤ e.month) (hm2 : e.month ≤ 12) :
    datetime_to_count C e s = some
      { accepted C e s with
        morning_msg_count := s.morning_msg_count + (if e.hour ≥ 6 ∧ e.hour < 12 then 1 else 0),
        afternoon_msg_count :=
          s.afternoon_msg_count + (if e.hour ≥ 12 ∧ e.hour < 18 then 1 else 0),
        evening_msg_count := s.evening_msg_count + (if e.hour ≥ 18 ∧ e.hour < 22 then 1 else 0),
        night_msg_count :=
          s.night_msg_count + (if e.hour ≥ 6 ∧ e.hour < 22 then 0 else 1) } := by
  have h1 : ¬ e.year < FIRST_YEAR := by omega
  have h2 : 1 ≤ e.month ∧ e.month - 1 < NUM_MONTHS ∧ e.year - FIRST_YEAR < NUM_YEARS := by
    simp only [NUM_MONTHS, NUM_YEARS, LAST_YEAR, FIRST_YEAR] at *
    omega
  unfold datetime_to_count accepted
  rw [if_neg h1]
  dsimp only
  rw [if_pos h2]
  by_cases a : e.hour ≥ 6 ∧ e.hour < 12
  · have b : ¬ (e.hour ≥ 12 ∧ e.hour < 18) := by omega
    have c : ¬ (e.hour ≥ 18 ∧ e.hour < 22) := by omega
    have d : e.hour ≥ 6 ∧ e.hour < 22 := by omega
    rw [if_pos a, if_pos a, if_neg b, if_neg c, if_pos d]
    rfl
  · by_cases b : e.hour ≥ 12 ∧ e.hour < 18
    · have c : ¬ (e.hour ≥ 18 ∧ e.hour < 22) := by omega
      have d : e.hour ≥ 6 ∧ e.hour < 22 := by omega
      rw [if_neg a, if_pos b, if_neg a, if_pos b, if_neg c, if_pos d]
      rfl
    · by_cases c : e.hour ≥ 18 ∧ e.hour < 22
      · have d : e.hour ≥ 6 ∧ e.hour < 22 := by omega
        rw [if_neg a, if_neg b, if_pos c, if_neg a, if_neg b, if_pos c, if_pos d]
        rfl
      · have d : ¬ (e.hour ≥ 6 ∧ e.hour < 22) := by omega
        rw [if_neg a, if_neg b, if_neg c, if_neg a, if_neg b, if_neg c, if_neg d]
        rfl

theorem message_history_inRange (C : Libc) (e : Event) (s : State) (he : inRange e) :
    ∃ s', message_history C e s = some s' ∧
      s'.month_counts = bump s.month_counts (e.month - 1) ∧
      s'.year_counts = bump s.year_counts (e.year - FIRST_YEAR) ∧
      s'.sent_msg_count = s.sent_msg_count + (if e.from_me = false then 0 else 1) ∧
      s'.received_msg_count = s.received_msg_count + (if e.from_me = false then 1 else 0) ∧
      s'.total_message_length = s.total_message_length + e.length ∧
      s'.longest_droughts = (insert (gapRecord C e s) s.longest_droughts s.heap_elements).1 ∧
      s'.heap_elements = (insert (gapRecord C e s) s.longest_droughts s.heap_elements).2 ∧
      s'.prev_time = (C.mktime (timestampOf e)).2 ∧
      s'.first_time = (if s.first_time = 0 then 1 else s.first_time) := by
  obtain ⟨hy, hy2, hm, hm2⟩ := he
  unfold message_history
  rw [datetime_to_count_accepted C e s hy hy2 hm hm2]
  dsimp only
  refine ⟨_, rfl, ?_⟩
  by_cases hf : e.from_me = false
  · simp only [hf, if_true]
    exact ⟨rfl, rfl, rfl, rfl, rfl, rfl, rfl, rfl, rfl⟩
  · simp only [hf, if_false]
    exact ⟨rfl, rfl, rfl, rfl, rfl, rfl, rfl, rfl, rfl⟩

/-! ## Sums of the buckets -/

theorem length_bump (l : List Nat) (i : Nat) : (bump l i).length = l.length := by
  simp [bump]

theorem sum_bump (l : List Nat) : ∀ (i : Nat), i < l.length → (bump l i).sum = l.sum + 1 := by
  induction l with
  | nil => intro i hi; simp at hi
  | cons a t ih =>
    intro i hi
    cases i with
    | zero => simp [bump]; omega
    | succ i =>
      have := ih i (by simpa using hi)
      simp only [bump, List.getD_cons_succ, List.set_cons_succ, List.sum_cons] at this ⊢
      omega

theorem run_sums (C : Libc) (evs : List Event) : ∀ (s : State),
    (∀ e ∈ evs, inRange e) → s.month_counts.length = NUM_MONTHS →
    s.year_counts.length = NUM_YEARS →
    ∃ s', run C evs s = some s' ∧
      s'.month_counts.sum = s.month_counts.sum + evs.length ∧
      s'.year_counts.sum = s.year_counts.sum + evs.length ∧
      s'.sent_msg_count + s'.received_msg_count =
        s.sent_msg_count + s.received_msg_count + evs.length := by
  induction evs with
  | nil => intro s _ _ _; exact ⟨s, rfl, rfl, rfl, rfl⟩
  | cons e es ih =>
    intro s hr hml hyl
    have he := hr e (List.mem_cons_self _ _)
    obtain ⟨s₁, h1, hmc, hyc, hsent, hrecv, _⟩ := message_history_inRange C e s he
    obtain ⟨hy, hy2, hm, hm2⟩ := he
    have hmi : e.month - 1 < s.month_counts.length := by
      rw [hml]; simp only [NUM_MONTHS]; omega
    have hyi : e.year - FIRST_YEAR < s.year_counts.length := by
      rw [hyl]; simp only [NUM_YEARS, LAST_YEAR, FIRST_YEAR] at *; omega
    obtain ⟨s', h2, a, b, c⟩ := ih s₁ (fun x hx => hr x (List.mem_cons_of_mem _ hx))
      (by rw [hmc, length_bump]; exact hml) (by rw [hyc, length_bump]; exact hyl)
    refine ⟨s', by simp only [run, h1]; exact h2, ?_, ?_, ?_⟩
    · rw [a, hmc, sum_bump _ _ hmi, List.length_cons]; omega
    · rw [b, hyc, sum_bump _ _ hyi, List.length_cons]; omega
    · by_cases hf : e.from_me = false
      · rw [if_pos hf] at hsent hrecv
        rw [c, hsent, hrecv, List.length_cons]; omega
      · rw [if_neg hf] at hsent hrecv
        rw [c, hsent, hrecv, List.length_cons]; omega

/-! ## The records held by the tracker are gaps between consecutive events -/

theorem insert_held (x : time_diff) (g : List time_diff) (n : Nat) (hlen : g.length = 15)
    (hn : n ≤ 15) :
    ∀ r ∈ (insert x g n).1.take (insert x g n).2, r = x ∨ r ∈ g.take n := by
  have h15 : HEAP_SIZE = 15 := rfl
  intro r hr
  by_cases hfull : n = 15
  · subst hfull
    have hsz : (insert x g 15).2 = 15 := by
      unfold insert
      rw [if_neg (by omega : (15 : Nat) ≠ 0), if_pos h15.symm]
      dsimp only
      split_ifs <;> rfl
    rw [hsz, List.take_of_length_le (by rw [length_insert]; omega)] at hr
    rw [List.take_of_length_le (by omega)]
    unfold insert at hr
    rw [if_neg (by omega : (15 : Nat) ≠ 0), if_pos h15.symm] at hr
    dsimp only at hr
    split_ifs at hr
    · unfold heapifyFrom at hr
      have hp := perm_heapifyLoop 15 (((scanMin g 15).1 : Int) / 2 - 1 + 1).toNat
        (wr g (scanMin g 15).1 x) (by rw [length_wr]; omega)
      have := (hp.mem_iff).1 hr
      unfold wr at this
      rcases List.mem_or_eq_of_mem_set this with e | e
      · exact Or.inr e
      · exact Or.inl e
    · exact Or.inr hr
  · have hlt : n < HEAP_SIZE := by omega
    rw [insert_size x g n hlt] at hr
    have := (insert_not_full_perm x g n (by rw [h15]; exact hlen) hlt).mem_iff.1 hr
    exact List.mem_cons.1 this

theorem isGapOf_snoc (C : Libc) (pre : List Event) (e : Event) (r : time_diff)
    (h : isGapOf C pre r) : isGapOf C (pre ++ [e]) r := by
  obtain ⟨h1, h2, h3⟩ := h
  refine ⟨h1, h2, ?_⟩
  rcases h3 with ⟨a, b, ⟨l₁, l₂, hl⟩, ha, hb⟩ | ⟨a, hh, ha, hb⟩
  · exact Or.inl ⟨a, b, ⟨l₁, l₂ ++ [e], by rw [hl]; simp⟩, ha, hb⟩
  · right
    refine ⟨a, ?_, ha, hb⟩
    cases pre with
    | nil => simp at hh
    | cons p ps => simpa using hh

/-- One accepted event keeps the invariant of the driver. -/
theorem driverInv_step (C : Libc) (hN : ∀ t, C.mktime (C.mktime t).2 = C.mktime t)
    (pre : List Event) (e : Event) (s : State) (hs : driverInv C pre s) (he : inRange e)
    (hmono : ∀ l last, pre = l ++ [last] →
      timeAt C last ≤ timeAt C e ∧ timeAt C e - timeAt C last < 2 ^ 64) :
    ∃ s', message_history C e s = some s' ∧ driverInv C (pre ++ [e]) s' := by
  obtain ⟨hT, hheld, hcur⟩ := hs
  obtain ⟨s', h1, _, _, _, _, _, hd, hn, hp, hf⟩ := message_history_inRange C e s he
  refine ⟨s', h1, ?_, ?_, ?_⟩
  · rw [hd, hn]
    exact TrackerInv_insert (gapRecord C e s) (s.longest_droughts, s.heap_elements) hT
  · have hgap : isGapOf C (pre ++ [e]) (gapRecord C e s) := by
      rcases hcur with ⟨hpre, hft⟩ | ⟨l, last, hpre, hft, hpt⟩
      · subst hpre
        have hz : toUint64 C (difftime (C.mktime (timestampOf e)).1 (C.mktime (timestampOf e)).1)
            = 0 := by
          unfold toUint64 difftime
          simp
        unfold isGapOf gapRecord
        rw [if_pos hft]
        dsimp only
        rw [hz]
        refine ⟨le_refl _, by simp, Or.inr ⟨e, rfl, rfl, rfl⟩⟩
      · obtain ⟨hle, hlt⟩ := hmono l last hpre
        unfold timeAt at hle hlt
        have hz : ((toUint64 C (difftime (C.mktime (timestampOf e)).1
            (C.mktime (timestampOf last)).1) : Nat) : Int)
            = (C.mktime (timestampOf e)).1 - (C.mktime (timestampOf last)).1 := by
          rw [toUint64_nonneg C _ (by unfold difftime; omega) (by unfold difftime; omega)]
          unfold difftime
          omega
        unfold isGapOf gapRecord
        rw [if_neg hft, hpt]
        unfold stamp
        simp only [hN]
        exact ⟨hle, hz, Or.inl ⟨last, e, ⟨l, [], by rw [hpre]; simp⟩, rfl, rfl⟩⟩
    intro r hr
    unfold held at hr
    rw [hd, hn] at hr
    rcases insert_held _ _ _ hT.1 hT.2.1 r hr with e1 | e1
    · rw [e1]; exact hgap
    · exact isGapOf_snoc C pre e r (hheld r e1)
  · right
    refine ⟨pre, e, rfl, ?_, hp⟩
    rw [hf]
    split_ifs with h0
    · omega
    · exact h0

theorem driverInv_run (C : Libc) (hN : ∀ t, C.mktime (C.mktime t).2 = C.mktime t)
    (evs : List Event) : ∀ (pre : List Event) (s : State), driverInv C pre s →
    (∀ e ∈ evs, inRange e) →
    (∀ a b, adjacent a b (pre ++ evs) →
      timeAt C a ≤ timeAt C b ∧ timeAt C b - timeAt C a < 2 ^ 64) →
    ∃ s', run C evs s = some s' ∧ driverInv C (pre ++ evs) s' := by
  induction evs with
  | nil => intro pre s hs _ _; exact ⟨s, rfl, by simpa using hs⟩
  | cons e es ih =>
    intro pre s hs hr hm
    obtain ⟨s₁, h1, hs₁⟩ := driverInv_step C hN pre e s hs (hr e (List.mem_cons_self _ _))
      (fun l last hl => hm last e ⟨l, es, by rw [hl]; simp⟩)
    obtain ⟨s', h2, hs'⟩ := ih (pre ++ [e]) s₁ hs₁ (fun x hx => hr x (List.mem_cons_of_mem _ hx))
      (fun a b hab => hm a b (by simpa using hab))
    exact ⟨s', by simp only [run, h1]; exact h2, by simpa using hs'⟩

theorem driverInv_init (C : Libc) : driverInv C [] State.init :=
  ⟨TrackerInv_empty, by intro r hr; simp [held, State.init] at hr, Or.inl ⟨rfl, rfl⟩⟩

theorem chain_adjacent {R : Event → Event → Prop} {evs : List Event} (h : evs.Chain' R)
    {a b : Event} (hab : adjacent a b evs) : R a b := by
  obtain ⟨l₁, l₂, rfl⟩ := hab
  exact (List.chain'_cons.1 (List.chain'_split.1 h).2).1

theorem adjacent_mem {evs : List Event} {a b : Event} (hab : adjacent a b evs) :
    a ∈ evs ∧ b ∈ evs := by
  obtain ⟨l₁, l₂, rfl⟩ := hab
  simp

/-! ## Every inner slot of a full tracker is above a leaf -/

theorem leaf_le_inner (t : Tracker) (ht : TrackerInv t) (hfull : t.2 = 15) (i : Nat)
    (hi : i < 7) : ∃ j, 7 ≤ j ∧ j < 15 ∧ key t.1 j ≤ key t.1 i := by
  obtain ⟨hL, hR⟩ := ht.2.2.2 hfull
  have l0 := hL 0 (by omega) (by omega)
  have l1 := hL 1 (by omega) (by omega)
  have r2 := hR 2 (by omega) (by omega)
  have r3 := hR 3 (by omega) (by omega)
  have r4 := hR 4 (by omega) (by omega)
  have r5 := hR 5 (by omega) (by omega)
  have r6 := hR 6 (by omega) (by omega)
  norm_num at l0 l1 r2 r3 r4 r5 r6
  have : i = 0 ∨ i = 1 ∨ i = 2 ∨ i = 3 ∨ i = 4 ∨ i = 5 ∨ i = 6 := by omega
  rcases this with e | e | e | e | e | e | e <;> subst e
  · exact ⟨8, by omega, by omega, by omega⟩
  · exact ⟨8, by omega, by omega, by omega⟩
  · exact ⟨14, by omega, by omega, by omega⟩
  · exact ⟨8, by omega, by omega, r3⟩
  · exact ⟨10, by omega, by omega, r4⟩
  · exact ⟨12, by omega, by omega, r5⟩
  · exact ⟨14, by omega, by omega, r6⟩

/-! ## Bucket by bucket -/

theorem getD_bump (l : List Nat) (i j : Nat) (hi : i < l.length) :
    (bump l i).getD j 0 = l.getD j 0 + (if j = i then 1 else 0) := by
  unfold bump
  by_cases h : j = i
  · subst h; simp [List.getD_eq_getElem?_getD, hi]
  · simp [List.getD_eq_getElem?_getD, h, List.getElem?_set_ne (Ne.symm h)]

theorem run_buckets (C : Libc) (evs : List Event) : ∀ (s : State),
    (∀ e ∈ evs, inRange e) → s.month_counts.length = NUM_MONTHS →
    s.year_counts.length = NUM_YEARS →
    ∃ s', run C evs s = some s' ∧
      (∀ i, s'.month_counts.getD i 0
        = s.month_counts.getD i 0 + evs.countP (fun e => decide (e.month - 1 = i))) ∧
      (∀ i, s'.year_counts.getD i 0
        = s.year_counts.getD i 0 + evs.countP (fun e => decide (e.year - FIRST_YEAR = i))) ∧
      s'.sent_msg_count = s.sent_msg_count + evs.countP (fun e => e.from_me) ∧
      s'.received_msg_count = s.received_msg_count + evs.countP (fun e => !e.from_me) := by
  induction evs with
  | nil => intro s _ _ _; exact ⟨s, rfl, by simp, by simp, by simp, by simp⟩
  | cons e es ih =>
    intro s hr hml hyl
    have he := hr e (List.mem_cons_self _ _)
    obtain ⟨s₁, h1, hmc, hyc, hsent, hrecv, _⟩ := message_history_inRange C e s he
    obtain ⟨hy, hy2, hm, hm2⟩ := he
    have hmi : e.month - 1 < s.month_counts.length := by
      rw [hml]; simp only [NUM_MONTHS]; omega
    have hyi : e.year - FIRST_YEAR < s.year_counts.length := by
      rw [hyl]; simp only [NUM_YEARS, LAST_YEAR, FIRST_YEAR] at *; omega
    obtain ⟨s', h2, a, b, c, d⟩ := ih s₁ (fun x hx => hr x (List.mem_cons_of_mem _ hx))
      (by rw [hmc, length_bump]; exact hml) (by rw [hyc, length_bump]; exact hyl)
    refine ⟨s', by simp only [run, h1]; exact h2, ?_, ?_, ?_, ?_⟩
    · intro i
      rw [a i, hmc, getD_bump _ _ _ hmi, List.countP_cons]
      by_cases hi : e.month - 1 = i
      · simp [hi]; omega
      · have hi' : i ≠ e.month - 1 := fun h => hi h.symm
        simp [hi, hi']
    · intro i
      rw [b i, hyc, getD_bump _ _ _ hyi, List.countP_cons]
      by_cases hi : e.year - FIRST_YEAR = i
      · simp [hi]; omega
      · have hi' : i ≠ e.year - FIRST_YEAR := fun h => hi h.symm
        simp [hi, hi']
    · rw [c, hsent, List.countP_cons]
      cases e.from_me <;> first | (simp; omega) | simp
    · rw [d, hrecv, List.countP_cons]
      cases e.from_me <;> first | (simp; omega) | simp

/-! ## The tracker holds the largest durations, when they fit an `int` -/

theorem largest_unique (S T R : List Nat) (k : Nat) (hp : List.Perm S (T ++ R))
    (hl : T.length = min S.length k) (hd : ∀ t ∈ T, ∀ r ∈ R, r ≤ t) :
    List.Perm T (largest k S) := by
  unfold largest
  have hs : List.Sorted (· ≥ ·) (T.insertionSort (· ≥ ·) ++ R.insertionSort (· ≥ ·)) := by
    unfold List.Sorted
    rw [List.pairwise_append]
    refine ⟨List.sorted_insertionSort _ _, List.sorted_insertionSort _ _, ?_⟩
    intro a ha b hb
    exact hd a ((List.perm_insertionSort _ _).mem_iff.1 ha) b
      ((List.perm_insertionSort _ _).mem_iff.1 hb)
  have hperm : List.Perm (S.insertionSort (· ≥ ·))
      (T.insertionSort (· ≥ ·) ++ R.insertionSort (· ≥ ·)) :=
    ((List.perm_insertionSort _ S).trans hp).trans
      (List.Perm.append (List.perm_insertionSort _ T).symm (List.perm_insertionSort _ R).symm)
  have heq := List.eq_of_perm_of_sorted hperm (List.sorted_insertionSort _ _) hs
  rw [heq, List.take_append_eq_append_take, List.length_insertionSort]
  have hlen := hp.length_eq
  rw [List.length_append] at hlen
  have h1 : T.length ≤ k := by omega
  rw [List.take_of_length_le (by rw [List.length_insertionSort]; exact h1)]
  by_cases hk : S.length ≤ k
  · have hR : R = [] := by
      apply List.eq_nil_of_length_eq_zero
      omega
    subst hR
    simpa using (List.perm_insertionSort _ T).symm
  · have : k - T.length = 0 := by omega
    rw [this]
    simpa using (List.perm_insertionSort _ T).symm

theorem key_mem_durations (g : List time_diff) (n i : Nat) (hn : n ≤ g.length) (hi : i < n) :
    key g i ∈ durations (g, n) := by
  unfold durations key
  dsimp only
  rw [List.mem_map]
  refine ⟨rd g i, ?_, rfl⟩
  rw [rd_eq_getElem g i (by omega), List.mem_take_iff_getElem]
  exact ⟨i, by omega, rfl⟩

theorem length_durations (g : List time_diff) (n : Nat) (hn : n ≤ g.length) :
    (durations (g, n)).length = n := by
  unfold durations
  simp [hn]

/-- The effect of `insert` on the durations of a full tracker whose durations
are below `2 ^ 31`: a least duration `mn` is replaced by the duration of `x` when
that is larger, and nothing changes otherwise. -/
theorem durations_insert_full (x : time_diff) (g : List time_diff) (hlen : g.length = 15)
    (hw : TrackerInv (g, 15)) (hb : ∀ i, i < 15 → key g i < 2 ^ 31) :
    ∃ (mn : Nat) (E : List Nat), List.Perm (durations (g, 15)) (mn :: E) ∧
      (∀ i, i < 15 → mn ≤ key g i) ∧
      ((mn < x.seconds ∧ (insert x g 15).2 = 15 ∧
          List.Perm (durations (insert x g 15)) (x.seconds :: E)) ∨
        (x.seconds ≤ mn ∧ insert x g 15 = (g, 15))) := by
  have h15 : HEAP_SIZE = 15 := rfl
  obtain ⟨hleaf, hval⟩ := scanMin_min g (fun i _ hi => hb i hi)
  obtain ⟨m7, m15⟩ := scanMin_idx g
  have hmin : ∀ i, i < 15 → key g (scanMin g 15).1 ≤ key g i := by
    intro i hi
    by_cases h7 : 7 ≤ i
    · exact hleaf i h7 hi
    · obtain ⟨j, j7, j15, hj⟩ := leaf_le_inner (g, 15) hw rfl i (by omega)
      exact le_trans (hleaf j j7 j15) hj
  have hD : List.Perm (durations (g, 15))
      (key g (scanMin g 15).1 :: (g.eraseIdx (scanMin g 15).1).map time_diff.seconds) := by
    unfold durations
    dsimp only
    rw [List.take_of_length_le (by omega)]
    have := (perm_cons_eraseIdx g (scanMin g 15).1 (by omega)).map time_diff.seconds
    rw [List.map_cons, ← rd_eq_getElem g _ (by omega)] at this
    exact this
  refine ⟨key g (scanMin g 15).1, (g.eraseIdx (scanMin g 15).1).map time_diff.seconds, hD, hmin, ?_⟩
  unfold insert
  rw [if_neg (by omega : (15 : Nat) ≠ 0), if_pos h15.symm]
  dsimp only
  rw [hval]
  by_cases hx : x.seconds > key g (scanMin g 15).1
  · rw [if_pos hx]
    refine Or.inl ⟨hx, rfl, ?_⟩
    unfold durations heapifyFrom
    dsimp only
    rw [List.take_of_length_le (by rw [length_heapifyLoop, length_wr]; omega)]
    have hp := (perm_heapifyLoop 15 (((scanMin g 15).1 : Int) / 2 - 1 + 1).toNat
      (wr g (scanMin g 15).1 x) (by rw [length_wr]; omega)).map time_diff.seconds
    have hq := (perm_set_cons g (scanMin g 15).1 x (by omega)).map time_diff.seconds
    rw [List.map_cons] at hq
    exact hp.trans hq
  · rw [if_neg hx]
    exact Or.inr ⟨not_lt.1 hx, rfl⟩

/-- One `insert` keeps `holdsLargest`. -/
theorem holdsLargest_insert (pre : List time_diff) (x : time_diff) (t : Tracker)
    (ht : TrackerInv t) (hh : holdsLargest pre t) (hpre : ∀ y ∈ pre, y.seconds < 2 ^ 31) :
    holdsLargest (pre ++ [x]) (insert x t.1 t.2) := by
  obtain ⟨g, n⟩ := t
  obtain ⟨hsz, R, hperm, hdom⟩ := hh
  have hlen : g.length = 15 := ht.1
  have hn : n ≤ 15 := ht.2.1
  have h15 : HEAP_SIZE = 15 := rfl
  dsimp only at hsz ⊢
  have hS : List.Perm ((pre ++ [x]).map time_diff.seconds)
      (x.seconds :: (durations (g, n) ++ R)) := by
    rw [List.map_append, List.map_singleton]
    exact (List.perm_append_singleton _ _).trans (List.Perm.cons _ hperm)
  by_cases hfull : n = 15
  · subst hfull
    have hb : ∀ i, i < 15 → key g i < 2 ^ 31 := by
      intro i hi
      have h1 := key_mem_durations g 15 i (by omega) hi
      have h2 : key g i ∈ pre.map time_diff.seconds :=
        hperm.mem_iff.2 (List.mem_append_left _ h1)
      obtain ⟨y, hy, e⟩ := List.mem_map.1 h2
      rw [← e]; exact hpre y hy
    obtain ⟨mn, E, hD, hmin, hcase⟩ := durations_insert_full x g hlen ht hb
    have hmnD : mn ∈ durations (g, 15) := hD.mem_iff.2 (List.mem_cons_self _ _)
    have hminD : ∀ d ∈ durations (g, 15), mn ≤ d := by
      intro d hd
      unfold durations at hd
      dsimp only at hd
      rw [List.take_of_length_le (by omega)] at hd
      obtain ⟨r, hr, e⟩ := List.mem_map.1 hd
      obtain ⟨i, hi, e2⟩ := List.mem_iff_getElem.1 hr
      have := hmin i (by omega)
      unfold key at this
      rw [rd_eq_getElem g i hi, e2, e] at this
      exact this
    rcases hcase with ⟨hlt, hsz2, hD2⟩ | ⟨hle, heq⟩
    · refine ⟨by rw [hsz2, List.length_append]; simp; omega, mn :: R, ?_, ?_⟩
      · refine hS.trans ?_
        have h1 : List.Perm (x.seconds :: (durations (g, 15) ++ R))
            (x.seconds :: ((mn :: E) ++ R)) := List.Perm.cons _ (List.Perm.append_right _ hD)
        refine h1.trans ?_
        have h2 : List.Perm (x.seconds :: ((mn :: E) ++ R)) ((x.seconds :: E) ++ (mn :: R)) := by
          simp only [List.cons_append]
          exact List.Perm.cons _ List.perm_middle.symm
        exact h2.trans (List.Perm.append_right _ hD2.symm)
      · intro d hd r hr
        have hd' := hD2.mem_iff.1 hd
        rcases List.mem_cons.1 hr with e | hrR
        · rw [e]
          rcases List.mem_cons.1 hd' with e2 | hdE
          · rw [e2]; omega
          · exact hminD d (hD.mem_iff.2 (List.mem_cons_of_mem _ hdE))
        · have hrm : r ≤ mn := hdom mn hmnD r hrR
          rcases List.mem_cons.1 hd' with e2 | hdE
          · rw [e2]; omega
          · exact hdom d (hD.mem_iff.2 (List.mem_cons_of_mem _ hdE)) r hrR
    · rw [heq]
      refine ⟨by rw [List.length_append]; simp; omega, x.seconds :: R, ?_, ?_⟩
      · exact hS.trans List.perm_middle.symm
      · intro d hd r hr
        rcases List.mem_cons.1 hr with e | hrR
        · rw [e]; exact le_trans hle (hminD d hd)
        · exact hdom d hd r hrR
  · have hlt : n < HEAP_SIZE := by omega
    have hs := insert_size x g n hlt
    have hp := (insert_not_full_perm x g n (by rw [h15]; exact hlen) hlt).map time_diff.seconds
    rw [List.map_cons] at hp
    have hlS := hperm.length_eq
    rw [List.length_append, List.length_map, length_durations g n (by omega)] at hlS
    have hR : R = [] := by
      apply List.eq_nil_of_length_eq_zero
      omega
    subst hR
    refine ⟨by rw [hs, List.length_append]; simp; omega, [], ?_, by simp⟩
    simp only [List.append_nil] at hS ⊢
    refine hS.trans ?_
    unfold durations
    dsimp only
    rw [hs]
    exact hp.symm

theorem holdsLargest_insertAll (xs : List time_diff) : ∀ (pre : List time_diff) (t : Tracker),
    TrackerInv t → holdsLargest pre t → (∀ y ∈ pre, y.seconds < 2 ^ 31) →
    (∀ y ∈ xs, y.seconds < 2 ^ 31) → holdsLargest (pre ++ xs) (insertAll xs t) := by
  induction xs with
  | nil => intro pre t _ hh _ _; simpa [insertAll] using hh
  | cons x xs ih =>
    intro pre t ht hh hpre hxs
    have hx := hxs x (List.mem_cons_self _ _)
    have h1 := holdsLargest_insert pre x t ht hh hpre
    have h2 := ih (pre ++ [x]) (insert x t.1 t.2) (TrackerInv_insert x t ht) h1
      (by
        intro y hy
        rcases List.mem_append.1 hy with h | h
        · exact hpre y h
        · rw [List.mem_singleton.1 h]; exact hx)
      (fun y hy => hxs y (List.mem_cons_of_mem _ hy))
    unfold insertAll
    rw [List.foldl_cons]
    simpa using h2

/-- For records whose durations are below `2 ^ 31`, the tracker after the calls
of `insert` from the empty tracker holds `min n 15` records, and their durations
are, as a multiset, the `min n 15` largest durations of the sequence. -/
theorem insert_keeps_largest (xs : List time_diff) (hb : ∀ x ∈ xs, x.seconds < 2 ^ 31) :
    (insertAll xs Tracker.empty).2 = min xs.length HEAP_SIZE ∧
    List.Perm (durations (insertAll xs Tracker.empty))
      (largest HEAP_SIZE (xs.map time_diff.seconds)) := by
  have h0 : holdsLargest [] Tracker.empty :=
    ⟨by simp [Tracker.empty], [], by simp [durations, Tracker.empty], by simp⟩
  have hh := holdsLargest_insertAll xs [] Tracker.empty TrackerInv_empty h0 (by simp) hb
  have hT := TrackerInv_insertAll xs Tracker.empty TrackerInv_empty
  rw [List.nil_append] at hh
  obtain ⟨hsz, R, hperm, hdom⟩ := hh
  have h15 : HEAP_SIZE = 15 := rfl
  refine ⟨by rw [h15]; exact hsz, ?_⟩
  rw [h15]
  apply largest_unique _ _ R 15 hperm _ hdom
  have := length_durations (insertAll xs Tracker.empty).1 (insertAll xs Tracker.empty).2
    (by rw [hT.1]; exact hT.2.1)
  rw [this, hsz, List.length_map]

/-! ## The claims -/

/-- C1, evaluated on the code: after fifteen gaps of `2 ^ 32` seconds and then a
gap of one second, the tracker holds the gap of one second in place of one of
the fifteen largest: `insert` keeps the least duration it found in an `int`, so
`2 ^ 32` is compared as `0`. -/
theorem insert_truncates_minimum :
    durations (insertAll trunc16 Tracker.empty)
      = List.replicate 7 (2 ^ 32) ++ 1 :: List.replicate 7 (2 ^ 32) ∧
    largest 15 (trunc16.map time_diff.seconds) = List.replicate 15 (2 ^ 32) ∧
    ¬ List.Perm (durations (insertAll trunc16 Tracker.empty))
      (largest 15 (trunc16.map time_diff.seconds)) := by
  decide

/-- C2, evaluated on the code: the tracker is full after the gaps of 1, ..., 15
seconds, its least leaf is slot 7 with one second, and `insert` of a gap of 16
seconds overwrites slot 7 and leaves slot 3 (7 seconds) below its child, slot 7
(16 seconds): the loop starts at `min_index / 2 - 1 = 2` and never reaches the
parent of slot 7. -/
theorem insert_full_breaks_heap :
    (insertAll asc15 Tracker.empty).2 = HEAP_SIZE ∧
    (scanMin (insertAll asc15 Tracker.empty).1 HEAP_SIZE).1 = 7 ∧
    key (insertAll asc15 Tracker.empty).1 7 = 1 ∧
    durations (insert (gapOf 16) (insertAll asc15 Tracker.empty).1 HEAP_SIZE)
      = [15, 10, 14, 7, 9, 11, 13, 16, 4, 3, 8, 2, 6, 5, 12] ∧
    ¬ isHeap (insert (gapOf 16) (insertAll asc15 Tracker.empty).1 HEAP_SIZE).1 HEAP_SIZE := by
  refine ⟨by decide, by decide, by decide, by decide, ?_⟩
  intro h
  have h3 := (h 3).1 (by decide)
  exact absurd h3 (by decide)

/-- C3, as amended: an event of a year before `FIRST_YEAR` leaves the year and
month buckets, the four counters of the bands, the cursor (`prev_time` and
`first_time`) and the tracker as they are; `message_history` still adds one to
`received_msg_count` or to `sent_msg_count` and the length of the text to
`total_message_length`. -/
theorem below_range_skips_buckets (C : Libc) (e : Event) (s : State)
    (h : e.year < FIRST_YEAR) :
    message_history C e s = some
      { s with
        received_msg_count := s.received_msg_count + (if e.from_me = false then 1 else 0),
        sent_msg_count := s.sent_msg_count + (if e.from_me = false then 0 else 1),
        total_message_length := s.total_message_length + e.length } := by
  unfold message_history datetime_to_count
  rw [if_pos h]
  dsimp only
  by_cases hf : e.from_me = false
  · rw [if_pos hf, if_pos hf, if_pos hf]
    rfl
  · rw [if_neg hf, if_neg hf, if_neg hf]
    rfl

/-- Witness of C3 as amended: the event of 1999-06-01 on the initial state. -/
theorem below_range_skips_buckets_witness :
    message_history Libc.utc (eventAt 1999 6 1 12 0 0) State.init = some
      { State.init with
        received_msg_count := State.init.received_msg_count +
          (if (eventAt 1999 6 1 12 0 0).from_me = false then 1 else 0),
        sent_msg_count := State.init.sent_msg_count +
          (if (eventAt 1999 6 1 12 0 0).from_me = false then 0 else 1),
        total_message_length := State.init.total_message_length +
          (eventAt 1999 6 1 12 0 0).length } :=
  below_range_skips_buckets Libc.utc (eventAt 1999 6 1 12 0 0) State.init (by decide)

/-- Counterexample to C3 as stated: the event of 1999-06-01 changes
`received_msg_count` from 0 to 1. -/
theorem out_of_range_is_counted :
    State.init.received_msg_count = 0 ∧
    (message_history Libc.utc (eventAt 1999 6 1 12 0 0) State.init).map
      (fun s => s.received_msg_count) = some 1 := by
  decide

/-- C4, as amended: an accepted event whose time is strictly before the cursor
raises no error: `datetime_to_count` returns a state, the record it hands to
`insert` has the cursor and the timestamp as boundaries and, as duration, what
the conversion to `uint64_t` makes of the negative difference, a tracker that is
not full grows by that record, and the cursor moves back to the timestamp. -/
theorem earlier_timestamp_no_error (C : Libc) (e : Event) (s : State) (he : inRange e)
    (hf : s.first_time ≠ 0)
    (hlt : (C.mktime (timestampOf e)).1 < (C.mktime s.prev_time).1) :
    ∃ s', datetime_to_count C e s = some s' ∧
      (s'.longest_droughts, s'.heap_elements) =
        insert { seconds := C.castOut ((C.mktime (timestampOf e)).1 - (C.mktime s.prev_time).1),
                 time_1 := (C.mktime s.prev_time).2,
                 time_2 := (C.mktime (timestampOf e)).2 } s.longest_droughts s.heap_elements ∧
      s'.prev_time = (C.mktime (timestampOf e)).2 ∧
      (s.longest_droughts.length = HEAP_SIZE → s.heap_elements < HEAP_SIZE →
        s'.heap_elements = s.heap_elements + 1 ∧
        List.Perm (held s')
          ({ seconds := C.castOut ((C.mktime (timestampOf e)).1 - (C.mktime s.prev_time).1),
             time_1 := (C.mktime s.prev_time).2,
             time_2 := (C.mktime (timestampOf e)).2 } :: held s)) := by
  obtain ⟨hy, hy2, hm, hm2⟩ := he
  rw [datetime_to_count_accepted C e s hy hy2 hm hm2]
  have hg : gapRecord C e s =
      { seconds := C.castOut ((C.mktime (timestampOf e)).1 - (C.mktime s.prev_time).1),
        time_1 := (C.mktime s.prev_time).2, time_2 := (C.mktime (timestampOf e)).2 } := by
    unfold gapRecord
    rw [if_neg hf]
    dsimp only
    rw [toUint64_neg C _ (by unfold difftime; omega)]
    rfl
  unfold gapRecord at hg
  refine ⟨_, rfl, ?_, rfl, ?_⟩
  · unfold accepted
    dsimp only
    rw [hg]
  · intro hlen hn
    unfold held accepted
    dsimp only
    rw [hg, insert_size _ _ _ hn]
    exact ⟨rfl, insert_not_full_perm _ s.longest_droughts s.heap_elements hlen hn⟩

/-- Witness of C4 as amended: the event of 00:00:05 after those of 00:00:00 and
00:00:10. -/
theorem earlier_timestamp_no_error_witness :
    (Libc.utc.mktime (timestampOf (eventAt 2010 1 1 0 0 5))).1
      < (Libc.utc.mktime afterTwo.prev_time).1 ∧
    ∃ s', datetime_to_count Libc.utc (eventAt 2010 1 1 0 0 5) afterTwo = some s' ∧
      (s'.longest_droughts, s'.heap_elements) =
        insert { seconds := Libc.utc.castOut
                   ((Libc.utc.mktime (timestampOf (eventAt 2010 1 1 0 0 5))).1
                     - (Libc.utc.mktime afterTwo.prev_time).1),
                 time_1 := (Libc.utc.mktime afterTwo.prev_time).2,
                 time_2 := (Libc.utc.mktime (timestampOf (eventAt 2010 1 1 0 0 5))).2 }
          afterTwo.longest_droughts afterTwo.heap_elements ∧
      s'.prev_time = (Libc.utc.mktime (timestampOf (eventAt 2010 1 1 0 0 5))).2 ∧
      (afterTwo.longest_droughts.length = HEAP_SIZE → afterTwo.heap_elements < HEAP_SIZE →
        s'.heap_elements = afterTwo.heap_elements + 1 ∧
        List.Perm (held s')
          ({ seconds := Libc.utc.castOut
               ((Libc.utc.mktime (timestampOf (eventAt 2010 1 1 0 0 5))).1
                 - (Libc.utc.mktime afterTwo.prev_time).1),
             time_1 := (Libc.utc.mktime afterTwo.prev_time).2,
             time_2 := (Libc.utc.mktime (timestampOf (eventAt 2010 1 1 0 0 5))).2 }
            :: held afterTwo)) :=
  ⟨by decide, earlier_timestamp_no_error Libc.utc (eventAt 2010 1 1 0 0 5) afterTwo
    (by decide) (by decide) (by decide)⟩

/-- Counterexample to C4 as stated: the events at the times 0, 10 and 5 are all
processed, no error is raised at the third, and the tracker then holds three
records, the one at the root with the wrapped duration `2 ^ 64 - 5`. -/
theorem non_monotonic_inserts_gap :
    (run Libc.utc [eventAt 2010 1 1 0 0 0, eventAt 2010 1 1 0 0 10, eventAt 2010 1 1 0 0 5]
      State.init).map (fun s => (s.heap_elements, (rd s.longest_droughts 0).seconds))
    = some (3, 2 ^ 64 - 5) := by
  decide

/-- C5, as amended: the first accepted event of a run sets the cursor to the
timestamp of the event, as `mktime` normalises it, and inserts one record of 0
seconds that starts and ends at that timestamp: `heap_elements` is 1
afterwards. -/
theorem first_event_seeds (C : Libc) (e : Event) (s : State) (he : inRange e)
    (hf : s.first_time = 0) (hn : s.heap_elements = 0)
    (hlen : s.longest_droughts.length = HEAP_SIZE) :
    ∃ s', datetime_to_count C e s = some s' ∧
      s'.prev_time = (C.mktime (timestampOf e)).2 ∧ s'.first_time = 1 ∧
      s'.heap_elements = 1 ∧
      held s' = [{ seconds := 0, time_1 := (C.mktime (timestampOf e)).2,
                   time_2 := (C.mktime (timestampOf e)).2 }] := by
  obtain ⟨hy, hy2, hm, hm2⟩ := he
  rw [datetime_to_count_accepted C e s hy hy2 hm hm2]
  have hz : toUint64 C (difftime (C.mktime (timestampOf e)).1 (C.mktime (timestampOf e)).1)
      = 0 := by
    unfold toUint64 difftime
    simp
  have h15 : HEAP_SIZE = 15 := rfl
  refine ⟨_, rfl, rfl, ?_, ?_, ?_⟩
  · unfold accepted
    dsimp only
    rw [if_pos hf]
  · unfold accepted
    dsimp only
    rw [hn]
    rfl
  · unfold held accepted
    dsimp only
    rw [hn, if_pos hf, hz]
    unfold insert
    rw [if_pos rfl]
    dsimp only
    rw [take_succ_wr _ 0 _ (by omega)]
    rfl

/-- Witness of C5 as amended: the event of 2010-06-15 08:00:00 on the initial
state. -/
theorem first_event_seeds_witness :
    ∃ s', datetime_to_count Libc.utc (eventAt 2010 6 15 8 0 0) State.init = some s' ∧
      s'.prev_time = (Libc.utc.mktime (timestampOf (eventAt 2010 6 15 8 0 0))).2 ∧
      s'.first_time = 1 ∧ s'.heap_elements = 1 ∧
      held s' = [{ seconds := 0,
                   time_1 := (Libc.utc.mktime (timestampOf (eventAt 2010 6 15 8 0 0))).2,
                   time_2 := (Libc.utc.mktime (timestampOf (eventAt 2010 6 15 8 0 0))).2 }] :=
  first_event_seeds Libc.utc (eventAt 2010 6 15 8 0 0) State.init (by decide) rfl rfl rfl

/-- Counterexample to C5 as stated: after the first event of a run the tracker
is not empty, `heap_elements` is 1. -/
theorem first_event_records_gap :
    State.init.first_time = 0 ∧ State.init.heap_elements = 0 ∧
    (datetime_to_count Libc.utc (eventAt 2010 6 15 8 0 0) State.init).map
      (fun s => s.heap_elements) = some 1 := by
  decide

/-- C6, as amended: in every full tracker reached from the empty one, each
non-leaf slot `0..6` holds a duration that is at least the duration of some leaf
slot `7..14`; the least duration of the tracker is therefore always found among
the leaves, and no candidate lies above the true minimum and not above the
minimum of the leaves. -/
theorem inner_slot_above_a_leaf (xs : List time_diff)
    (hfull : (insertAll xs Tracker.empty).2 = HEAP_SIZE) (i : Nat) (hi : i < 7) :
    ∃ j, 7 ≤ j ∧ j < HEAP_SIZE ∧
      key (insertAll xs Tracker.empty).1 j ≤ key (insertAll xs Tracker.empty).1 i :=
  leaf_le_inner _ (TrackerInv_insertAll xs _ TrackerInv_empty) hfull i hi

/-- Witness of C6 as amended: the tracker after the gaps of 1, ..., 15 seconds,
at the root. -/
theorem inner_slot_above_a_leaf_witness :
    (insertAll asc15 Tracker.empty).2 = HEAP_SIZE ∧
    ∃ j, 7 ≤ j ∧ j < HEAP_SIZE ∧
      key (insertAll asc15 Tracker.empty).1 j ≤ key (insertAll asc15 Tracker.empty).1 0 :=
  ⟨by decide, inner_slot_above_a_leaf asc15 (by decide) 0 (by decide)⟩

/-- Counterexample to C6 as stated: no sequence of gaps leads to a full tracker
with a non-leaf slot strictly below every leaf slot, so the case of a candidate
above that slot and not above the leaves, discarded, does not arise. -/
theorem no_minimum_above_leaves :
    ¬ ∃ (xs : List time_diff) (x : time_diff) (i : Nat),
      (insertAll xs Tracker.empty).2 = HEAP_SIZE ∧ i < 7 ∧
      (∀ j, 7 ≤ j → j < HEAP_SIZE →
        key (insertAll xs Tracker.empty).1 i < key (insertAll xs Tracker.empty).1 j) ∧
      key (insertAll xs Tracker.empty).1 i < x.seconds ∧
      (∀ j, 7 ≤ j → j < HEAP_SIZE → x.seconds ≤ key (insertAll xs Tracker.empty).1 j) ∧
      insert x (insertAll xs Tracker.empty).1 (insertAll xs Tracker.empty).2
        = insertAll xs Tracker.empty := by
  rintro ⟨xs, x, i, hfull, hi, hlt, _⟩
  obtain ⟨j, h7, h15, hle⟩ :=
    leaf_le_inner _ (TrackerInv_insertAll xs _ TrackerInv_empty) hfull i hi
  have := hlt j h7 h15
  omega

/-- C7: `insert` on a tracker with fewer than `HEAP_SIZE` occupied slots adds
one to `heap_elements`, the occupied slots then hold the records held before and
`x`, as a multiset, and satisfy the max-heap invariant. The invariant of the
slots before the call is not needed: the loop runs `heapify` at every slot that
has a child. -/
theorem insert_below_capacity (x : time_diff) (heap : List time_diff) (n : Nat)
    (hlen : heap.length = HEAP_SIZE) (hn : n < HEAP_SIZE) :
    (insert x heap n).2 = n + 1 ∧
    List.Perm ((insert x heap n).1.take (n + 1)) (x :: heap.take n) ∧
    isHeap (insert x heap n).1 (n + 1) :=
  ⟨insert_size x heap n hn, insert_not_full_perm x heap n hlen hn,
    insert_not_full_isHeap x heap n hlen hn⟩

/-- Witness of C7: a gap of 7 seconds into the tracker that holds the gaps of 5,
9 and 2 seconds. -/
theorem insert_below_capacity_witness :
    (insertAll three Tracker.empty).2 = 3 ∧
    (insert (gapOf 7) (insertAll three Tracker.empty).1 3).2 = 3 + 1 ∧
    List.Perm ((insert (gapOf 7) (insertAll three Tracker.empty).1 3).1.take (3 + 1))
      (gapOf 7 :: (insertAll three Tracker.empty).1.take 3) ∧
    isHeap (insert (gapOf 7) (insertAll three Tracker.empty).1 3).1 (3 + 1) :=
  ⟨by decide, insert_below_capacity (gapOf 7) (insertAll three Tracker.empty).1 3
    (by decide) (by decide)⟩

/-- C8: for events whose years lie in `[FIRST_YEAR, LAST_YEAR]` and whose months
lie in `1..12`, processed from the zeroed counters, the run ends in a state where
the sum of `month_counts`, the sum of `year_counts` and
`sent_msg_count + received_msg_count` all equal the number of events; bucket by
bucket, `month_counts[i]` is the number of events of month `i + 1`,
`year_counts[i]` the number of events of year `FIRST_YEAR + i`, and the sent and
received counters are the numbers of events of each sender. -/
theorem bucket_sums_agree (C : Libc) (evs : List Event) (hR : ∀ e ∈ evs, inRange e) :
    ∃ s, run C evs State.init = some s ∧
      s.month_counts.sum = evs.length ∧ s.year_counts.sum = evs.length ∧
      s.sent_msg_count + s.received_msg_count = evs.length ∧
      (∀ i, s.month_counts.getD i 0 = evs.countP (fun e => decide (e.month - 1 = i))) ∧
      (∀ i, s.year_counts.getD i 0 = evs.countP (fun e => decide (e.year - FIRST_YEAR = i))) ∧
      s.sent_msg_count = evs.countP (fun e => e.from_me) ∧
      s.received_msg_count = evs.countP (fun e => !e.from_me) := by
  obtain ⟨s, h1, a, b, c⟩ := run_sums C evs State.init hR rfl rfl
  obtain ⟨s', h2, d, e, f, g⟩ := run_buckets C evs State.init hR rfl rfl
  rw [h1] at h2
  cases h2
  refine ⟨s, h1, ?_, ?_, ?_, ?_, ?_, ?_, ?_⟩
  · rw [a]; simp [State.init]
  · rw [b]; simp [State.init]
  · rw [c]; simp [State.init]
  · intro i; rw [d i]; simp [State.init]
  · intro i; rw [e i]; simp [State.init]
  · rw [f]; simp [State.init]
  · rw [g]; simp [State.init]

/-- Witness of C8: the four events of `fourHours`. -/
theorem bucket_sums_agree_witness :
    (∀ e ∈ fourHours, inRange e) ∧
    ∃ s, run Libc.utc fourHours State.init = some s ∧
      s.month_counts.sum = fourHours.length ∧ s.year_counts.sum = fourHours.length ∧
      s.sent_msg_count + s.received_msg_count = fourHours.length ∧
      (∀ i, s.month_counts.getD i 0 = fourHours.countP (fun e => decide (e.month - 1 = i))) ∧
      (∀ i, s.year_counts.getD i 0
        = fourHours.countP (fun e => decide (e.year - FIRST_YEAR = i))) ∧
      s.sent_msg_count = fourHours.countP (fun e => e.from_me) ∧
      s.received_msg_count = fourHours.countP (fun e => !e.from_me) :=
  ⟨by decide, bucket_sums_agree Libc.utc fourHours (by decide)⟩

/-- C9, as amended: for in-range events in non-decreasing order of time, the
run ends in a state where every record held by the tracker has
`seconds = time_2 - time_1` with `time_1 ≤ time_2`, and is, as a whole record,
either the gap between an event and the event right before it, or the record of
the first event, which starts and ends at that event. The C library is taken to
return a normalised time unchanged and `time_t` values of 64 bits. -/
theorem held_records_are_gaps (C : Libc) (evs : List Event)
    (hN : ∀ t, C.mktime (C.mktime t).2 = C.mktime t)
    (hB : ∀ e ∈ evs, -(2 ^ 63) ≤ timeAt C e ∧ timeAt C e < 2 ^ 63)
    (hR : ∀ e ∈ evs, inRange e)
    (hM : evs.Chain' (fun a b => timeAt C a ≤ timeAt C b)) :
    ∃ s, run C evs State.init = some s ∧ ∀ r ∈ held s, isGapOf C evs r := by
  obtain ⟨s, h1, h2⟩ := driverInv_run C hN evs [] State.init (driverInv_init C) hR
    (fun a b hab => by
      have hab' : adjacent a b evs := by simpa using hab
      have hle := chain_adjacent hM hab'
      have ha := hB a (adjacent_mem hab').1
      have hb := hB b (adjacent_mem hab').2
      exact ⟨hle, by omega⟩)
  exact ⟨s, h1, by simpa using h2.2.1⟩

/-- Witness of C9 as amended: the events of 2010-01-01 00:00:00 and 00:00:10. -/
theorem held_records_are_gaps_witness :
    ∃ s, run Libc.utc [eventAt 2010 1 1 0 0 0, eventAt 2010 1 1 0 0 10] State.init = some s ∧
      ∀ r ∈ held s, isGapOf Libc.utc [eventAt 2010 1 1 0 0 0, eventAt 2010 1 1 0 0 10] r :=
  held_records_are_gaps Libc.utc [eventAt 2010 1 1 0 0 0, eventAt 2010 1 1 0 0 10]
    (fun _ => rfl) (by decide) (by decide)
    (List.chain'_cons.2 ⟨by decide, List.chain'_singleton _⟩)

/-- Counterexample to C9 as stated: after a single event the tracker holds one
record, and the sequence has no pair of consecutive events for it to span. -/
theorem first_record_no_predecessor :
    (run Libc.utc [eventAt 2010 1 1 0 0 0] State.init).map (fun s => (held s).length) = some 1 ∧
    ∀ a b, ¬ adjacent a b [eventAt 2010 1 1 0 0 0] := by
  refine ⟨by decide, ?_⟩
  rintro a b ⟨l₁, l₂, h⟩
  have := congrArg List.length h
  simp at this
  omega

/-- C10: `datetime_to_count` on an accepted event adds one to exactly one of the
four counters of the bands and leaves the three others as they are: the morning
counter when `6 ≤ hour < 12`, the afternoon counter when `12 ≤ hour < 18`, the
evening counter when `18 ≤ hour < 22`, the night counter otherwise. -/
theorem time_of_day_bands (C : Libc) (e : Event) (s : State) (he : inRange e) :
    ∃ s', datetime_to_count C e s = some s' ∧
      s'.morning_msg_count = s.morning_msg_count + (if 6 ≤ e.hour ∧ e.hour < 12 then 1 else 0) ∧
      s'.afternoon_msg_count
        = s.afternoon_msg_count + (if 12 ≤ e.hour ∧ e.hour < 18 then 1 else 0) ∧
      s'.evening_msg_count
        = s.evening_msg_count + (if 18 ≤ e.hour ∧ e.hour < 22 then 1 else 0) ∧
      s'.night_msg_count
        = s.night_msg_count + (if 6 ≤ e.hour ∧ e.hour < 22 then 0 else 1) := by
  obtain ⟨hy, hy2, hm, hm2⟩ := he
  rw [datetime_to_count_accepted C e s hy hy2 hm hm2]
  exact ⟨_, rfl, rfl, rfl, rfl, rfl⟩

/-- Witness of C10: the event of 2010-06-15 08:00:00 on the initial state. -/
theorem time_of_day_bands_witness :
    ∃ s', datetime_to_count Libc.utc (eventAt 2010 6 15 8 0 0) State.init = some s' ∧
      s'.morning_msg_count = State.init.morning_msg_count +
        (if 6 ≤ (eventAt 2010 6 15 8 0 0).hour ∧ (eventAt 2010 6 15 8 0 0).hour < 12
          then 1 else 0) ∧
      s'.afternoon_msg_count = State.init.afternoon_msg_count +
        (if 12 ≤ (eventAt 2010 6 15 8 0 0).hour ∧ (eventAt 2010 6 15 8 0 0).hour < 18
          then 1 else 0) ∧
      s'.evening_msg_count = State.init.evening_msg_count +
        (if 18 ≤ (eventAt 2010 6 15 8 0 0).hour ∧ (eventAt 2010 6 15 8 0 0).hour < 22
          then 1 else 0) ∧
      s'.night_msg_count = State.init.night_msg_count +
        (if 6 ≤ (eventAt 2010 6 15 8 0 0).hour ∧ (eventAt 2010 6 15 8 0 0).hour < 22
          then 0 else 1) :=
  time_of_day_bands Libc.utc (eventAt 2010 6 15 8 0 0) State.init (by decide)

/-- The example of the bands: events at the hours 8, 14, 20 and 2 give one count
in each band. -/
theorem bands_example :
    (run Libc.utc fourHours State.init).map
      (fun s => (s.morning_msg_count, s.afternoon_msg_count, s.evening_msg_count,
        s.night_msg_count)) = some (1, 1, 1, 1) := by
  decide

/-- An event of a year after `LAST_YEAR` passes the test on the year; its index
into `year_counts` is outside the array. -/
theorem above_range_not_skipped (C : Libc) (e : Event) (s : State) (h : LAST_YEAR < e.year) :
    datetime_to_count C e s = none := by
  unfold datetime_to_count
  simp only [FIRST_YEAR, LAST_YEAR, NUM_YEARS, NUM_MONTHS] at *
  rw [if_neg (by omega), if_neg (by omega)]

end TextTranscript
